import Mathlib

/-!
Verification of the tree-layout and rendering logic of `Bio/Phylo/_utils.py`.

The tree data structure itself (`Bio.Phylo.BaseTree`) is an external
collaborator of this module; the query operations the layout code
consumes (`tree.depths()`, `tree.get_terminals()`, `tree.count_terminals()`)
are modelled from the specification of that query contract.

Clades are identified by their position in the tree: a `Pos` is the list of
child indices on the path from the root.  This mirrors CPython dict keying by
object identity, since distinct nodes of a tree occupy distinct positions.
Real-valued quantities (branch lengths, coordinates) are modelled as `Rat`;
the Python code computes them with floats, and every concrete computation the
claims touch is exact at this precision.
-/

set_option maxRecDepth 10000

namespace PhyloDraw

/-- Optional per-clade annotations consumed by the renderers.  The spec
directs that optional or duck-typed attributes (`color`, `width`,
`confidence`, `confidences`) be modelled as explicit optional fields; a
color is kept as its hex string, so that `to_hex` is the identity. -/
structure CladeInfo where
  branch_length : Option Rat
  name : Option String
  color : Option String
  width : Option Rat
  confidence : Option Rat
  confidences : Option (List Rat)
deriving DecidableEq

/-- A clade of a rooted phylogenetic tree: its annotations and its ordered
list of child clades (empty for a terminal). -/
inductive Clade where
  | node (info : CladeInfo) (clades : List Clade) : Clade

def Clade.info : Clade → CladeInfo
  | .node i _ => i

def Clade.children : Clade → List Clade
  | .node _ cs => cs

/-- A tree wraps a root clade; the `name` attribute is only consumed by the
aesthetics step of `draw`. -/
structure PTree where
  root : Clade
  name : Option String

/-- A clade annotation record with every optional attribute absent. -/
def blankInfo : CladeInfo :=
  { branch_length := none, name := none, color := none, width := none,
    confidence := none, confidences := none }

instance : Inhabited Clade := ⟨Clade.node blankInfo []⟩

/-- Python `str(clade)` on a `BaseTree.Clade`: the clade name when set,
otherwise the class name `"Clade"`.  Modelled from the spec: the external
tree model exposes a string label per clade (its `name`/label attribute). -/
def labelOf (c : Clade) : String := (c.info.name).getD "Clade"

/-- Position of a clade inside a tree: child indices along the path from
the root.  Stands in for CPython object identity as a dictionary key. -/
abbrev Pos := List Nat

/-- The subtree rooted at a given position, if the position is valid. -/
def subtreeAt : Clade → Pos → Option Clade
  | c, [] => some c
  | Clade.node _ cs, i :: r =>
    match cs[i]? with
    | some c => subtreeAt c r
    | none => none

/-- The position addresses a terminal clade (no children). -/
def isTipAt (c : Clade) (r : Pos) : Prop :=
  ∃ i, subtreeAt c r = some (Clade.node i [])

/-- The position addresses an internal clade (at least one child). -/
def isIntAt (c : Clade) (r : Pos) : Prop :=
  ∃ i d ds, subtreeAt c r = some (Clade.node i (d :: ds))

/-- First-match lookup in an association list keyed by positions; dictionary
assignment is modelled by prepending, so the most recent binding wins. -/
def mget {α : Type} : List (Pos × α) → Pos → Option α
  | [], _ => none
  | kv :: m, k => if kv.1 = k then some kv.2 else mget m k

/- Positions of the terminal clades of the subtree at `p`, in left-to-right
preorder: the order in which the external `tree.get_terminals()` yields the
leaves. -/
mutual
def termPosAux : Clade → Pos → List Pos
  | Clade.node _ [], p => [p]
  | Clade.node _ (c :: cs), p => termPosList (c :: cs) p 0
def termPosList : List Clade → Pos → Nat → List Pos
  | [], _, _ => []
  | c :: cs, p, i => termPosAux c (p ++ [i]) ++ termPosList cs p (i + 1)
end

def termPositions (t : Clade) : List Pos := termPosAux t []

/- Modelled from the spec: the external `tree.get_terminals()` — the leaf
clades in left-to-right traversal order. -/
mutual
def get_terminals : Clade → List Clade
  | Clade.node i [] => [Clade.node i []]
  | Clade.node _ (c :: cs) => terminalsList (c :: cs)
def terminalsList : List Clade → List Clade
  | [] => []
  | c :: cs => get_terminals c ++ terminalsList cs
end

/-- Modelled from the spec: the external `tree.count_terminals()`. -/
def count_terminals (t : Clade) : Nat := (get_terminals t).length

/-- Weight of the edge leading to a clade: `1` with unit branch lengths,
otherwise `branch_length or 0`. -/
def edgeStep (unit : Bool) (c : Clade) : Rat :=
  if unit then 1 else (c.info.branch_length).getD 0

/- Recursive worker for `tree_depths`: emits the clade at `p` with the
accumulated depth `d`, then its descendants. -/
mutual
def depthsAux (unit : Bool) : Clade → Pos → Rat → List (Pos × Rat)
  | Clade.node _ cs, p, d => (p, d) :: depthsList unit cs p 0 d
def depthsList (unit : Bool) : List Clade → Pos → Nat → Rat → List (Pos × Rat)
  | [], _, _, _ => []
  | c :: cs, p, i, d =>
      depthsAux unit c (p ++ [i]) (d + edgeStep unit c) ++ depthsList unit cs p (i + 1) d
end

/-- Modelled from the spec: the external `tree.depths(unit_branch_lengths)`
query — a mapping of every clade to its cumulative depth from the root
(depth 0 at the root; each edge contributes its branch length, or one unit
each when `unit` is set, so the unit depth is the edge count from the root). -/
def tree_depths (unit : Bool) (t : Clade) : List (Pos × Rat) :=
  depthsAux unit t [] 0

/-- Python `max` over the values of a depth dictionary.  The dictionary is
never empty in any reachable call (every tree has a root entry); the `[]`
case is an arbitrary default. -/
def maxVal (m : List (Pos × Rat)) : Rat :=
  match m with
  | [] => 0
  | kv :: rest => rest.foldl (fun a x => max a x.2) kv.2

/-- `get_x_positions` of `draw` (`_utils.py` lines 356-365): use the
branch-length depths, falling back to unit branch lengths exactly when
their maximum is zero (`if not max(depths.values())`). -/
def get_x_positions (t : Clade) : List (Pos × Rat) :=
  let depths := tree_depths false t
  if maxVal depths = 0 then tree_depths true t else depths

/-- Python `int()` applied to a rational: truncation toward zero. -/
def truncInt (q : Rat) : Int := if q < 0 then -((-q).floor) else q.floor

/-- Widest terminal label, `max(len(str(taxon)) for taxon in taxa)`. -/
def maxLabelWidth (taxa : List Clade) : Nat :=
  match taxa.map (fun c => (labelOf c).length) with
  | [] => 0
  | v :: vs => vs.foldl max v

/-- `drawing_width = column_width - max_label_width - 1` of `draw_ascii`. -/
def drawingWidth (column_width : Int) (t : Clade) : Int :=
  column_width - maxLabelWidth (get_terminals t) - 1

/-- `get_col_positions` of `draw_ascii` (`_utils.py` lines 118-132),
parameterised by the enclosing `column_width`.  `int(ceil(log(len(taxa),2)))`
is the exact `⌈log2⌉`, i.e. `Nat.clog 2`.  The division by
`float(max(depths.values()))` raises `ZeroDivisionError` when that maximum
is zero, modelled by returning `none`. -/
def get_col_positions (column_width : Int) (t : Clade) : Option (List (Pos × Int)) :=
  let depths0 := tree_depths false t
  let depths := if maxVal depths0 = 0 then tree_depths true t else depths0
  let fudge_margin : Int := Nat.clog 2 (count_terminals t)
  let md := maxVal depths
  if md = 0 then none
  else
    let cols_per_branch_unit : Rat := ((drawingWidth column_width t - fudge_margin : Int) : Rat) / md
    some (depths.map (fun kv => (kv.1, truncInt (kv.2 * cols_per_branch_unit + 1))))

/- The recursive `calc_row` closure shared (up to the division used) by
`get_row_positions` and `get_y_positions`: a post-order pass that assigns
each internal clade `mid` of its first and last child, skipping subclades
already present in the mapping (the pre-seeded tips).  Accessing
`clade.clades[0]` of a childless clade raises `IndexError`, modelled by
`none`. -/
mutual
def calcRow {α : Type} (mid : α → α → α) : Clade → Pos → List (Pos × α) → Option (List (Pos × α))
  | Clade.node _ cs, p, m =>
    match cs with
    | [] => none
    | _ :: _ => do
      let m1 ← calcRowList mid cs p 0 m
      let a ← mget m1 (p ++ [0])
      let b ← mget m1 (p ++ [cs.length - 1])
      some ((p, mid a b) :: m1)
def calcRowList {α : Type} (mid : α → α → α) : List Clade → Pos → Nat → List (Pos × α) → Option (List (Pos × α))
  | [], _, _, m => some m
  | c :: cs, p, i, m => do
      let m1 ← if (mget m (p ++ [i])).isSome then some m else calcRow mid c (p ++ [i]) m
      calcRowList mid cs p (i + 1) m1
end

/-- Real-valued midpoint used by `get_y_positions`. -/
def midQ (a b : Rat) : Rat := (a + b) / 2

/-- Integer floor-division midpoint used by `get_row_positions`
(Python `//` on the non-negative row numbers). -/
def midNat (a b : Nat) : Nat := (a + b) / 2

/-- `get_y_positions` of `draw` (`_utils.py` lines 367-391): tips seeded
with `maxheight - i` over the reversed terminal enumeration, internal
clades at the real midpoint of their first and last child; the recursion
runs only when the root has children. -/
def get_y_positions (t : Clade) : Option (List (Pos × Rat)) :=
  let taxa := termPositions t
  let maxheight : Rat := count_terminals t
  let heights := (taxa.reverse.enum).map (fun iq => (iq.2, maxheight - (iq.1 : Rat)))
  match t with
  | Clade.node _ [] => some heights
  | Clade.node _ (_ :: _) => calcRow midQ t [] heights

/-- `get_row_positions` of `draw_ascii` (`_utils.py` lines 134-146): tips
seeded with `2 * idx` over the terminal enumeration, internal clades at the
floor midpoint of their first and last child; `calc_row(tree.root)` is
called unconditionally, so a childless root raises (`none`). -/
def get_row_positions (t : Clade) : Option (List (Pos × Nat)) :=
  let base := (termPositions t).enum.map (fun iq => (iq.2, 2 * iq.1))
  calcRow midNat t [] base

/-- Replace the element at index `n`, when in range. -/
def listModify {α : Type} : List α → Nat → (α → α) → List α
  | [], _, _ => []
  | x :: xs, 0, f => f x :: xs
  | x :: xs, n + 1, f => x :: listModify xs n f

/-- `char_matrix[r][c] = ch`.  Columns are the `int` column coordinates of
the layout; every reachable write is in range (negative or overflowing
columns would be a Python `IndexError`or index wrap, and the write is a
no-op here). -/
def setCell (mat : List (List Char)) (r : Nat) (c : Int) (ch : Char) : List (List Char) :=
  if c < 0 then mat
  else listModify mat r (fun row => listModify row c.toNat (fun _ => ch))

/-- `for col in range(c0, c1): char_matrix[row][col] = ch`. -/
def drawHRun (row : Nat) (ch : Char) (mat : List (List Char)) (c0 c1 : Int) : List (List Char) :=
  if c0 < c1 then drawHRun row ch (setCell mat row c0 ch) (c0 + 1) c1 else mat
termination_by (c1 - c0).toNat
decreasing_by omega

/-- `for row in range(r0, r1): char_matrix[row][col] = "|"`. -/
def drawVRun (col : Int) (mat : List (List Char)) : Nat → Nat → List (List Char)
  | r0, r1 => if h : r0 < r1 then drawVRun col (setCell mat r0 col '|') (r0 + 1) r1 else mat
termination_by r0 r1 => r1 - r0

/- The `draw_clade` closure of `draw_ascii` (`_utils.py` lines 152-169):
draw a horizontal run of underscores from `startcol` to the clade column,
then for an internal clade the vertical run of `|` joining the first and
last child rows, a cosmetic `,` when the first child branch is under two
columns, and the children, each starting one column further right. -/
mutual
def asciiDrawClade (cols : List (Pos × Int)) (rows : List (Pos × Nat)) :
    Clade → Pos → Int → List (List Char) → List (List Char)
  | Clade.node _ cs, p, startcol, mat =>
    let thiscol := (mget cols p).getD 0
    let thisrow := (mget rows p).getD 0
    let mat := drawHRun thisrow '_' mat startcol thiscol
    match cs with
    | [] => mat
    | _ :: _ =>
      let toprow := (mget rows (p ++ [0])).getD 0
      let botrow := (mget rows (p ++ [cs.length - 1])).getD 0
      let mat := drawVRun thiscol mat (toprow + 1) (botrow + 1)
      let mat :=
        if (mget cols (p ++ [0])).getD 0 - thiscol < 2 then setCell mat toprow thiscol ','
        else mat
      asciiDrawCladeList cols rows cs p 0 (thiscol + 1) mat
def asciiDrawCladeList (cols : List (Pos × Int)) (rows : List (Pos × Nat)) :
    List Clade → Pos → Nat → Int → List (List Char) → List (List Char)
  | [], _, _, _, mat => mat
  | c :: cs, p, i, startcol, mat =>
    asciiDrawCladeList cols rows cs p (i + 1) startcol
      (asciiDrawClade cols rows c (p ++ [i]) startcol mat)
end

/-- Python `str.rstrip()` on a drawing row (its characters are spaces,
underscores, bars and commas, so only spaces are stripped). -/
def rstripChars (l : List Char) : List Char :=
  (l.reverse.dropWhile (fun c => c = ' ')).reverse

/-- The output loop of `draw_ascii` (`_utils.py` lines 173-178): join and
right-strip each matrix row, and append `" " + str(taxa[idx // 2])` on even
rows.  The index `idx / 2` is always in range for the rows of the drawing. -/
def renderLines (mat : List (List Char)) (taxa : List Clade) : List String :=
  mat.enum.map (fun ir =>
    let line := String.mk (rstripChars ir.2)
    if ir.1 % 2 == 0 then line ++ " " ++ labelOf (taxa.getD (ir.1 / 2) default)
    else line)

/-- `draw_ascii` (`_utils.py` lines 85-179), returning the list of lines
written to the output stream (each was terminated by a newline; the final
bare `file.write` of a newline is the trailing empty line). -/
def draw_ascii (column_width : Int) (t : Clade) : Option (List String) := do
  let taxa := get_terminals t
  let drawing_height := 2 * taxa.length - 1
  let cols ← get_col_positions column_width t
  let rows ← get_row_positions t
  let mat := List.replicate drawing_height (List.replicate (drawingWidth column_width t).toNat ' ')
  let mat := asciiDrawClade cols rows t [] 0 mat
  some (renderLines mat taxa ++ [""])

/-- A drawing primitive issued to the plotting surface by `draw`, in the
order the external library receives it: texts are issued immediately
during `draw_clade`, buffered line collections when `add_collection` runs,
axis/labelling configuration afterwards, then passthrough pyplot options,
then `show`.  Polar primitives record the call skeleton of
`draw_clade_polar`; their float/π-valued geometry is not carried. -/
inductive Event where
  | hline (y x0 x1 : Rat) (color : String) (lw : Rat) (dashed : Bool)
  | vline (x y0 y1 : Rat) (color : String) (lw : Rat) (dashed : Bool)
  | text (x y : Rat) (s : String)
  | axisSet (tag : String)
  | setTitle (s : String)
  | polarPlot
  | polarArc
  | polarText (s : String)
  | pltOption (key : String)
  | showFig
deriving DecidableEq

/-- A Python exception escaping `draw`; messages are carried verbatim up to
punctuation. -/
inductive PyErr where
  | valueError (msg : String)
  | typeError (msg : String)
  | indexError
deriving DecidableEq

/-- The `branch_labels` argument of `draw`: absent (`None`), a dict keyed
by clade, a callable, or a truthy object that is neither (which trips the
`TypeError`). -/
inductive BranchLabelsArg where
  | noneArg : BranchLabelsArg
  | dict (entries : List (Pos × String)) : BranchLabelsArg
  | callable (f : Clade → Option String) : BranchLabelsArg
  | truthyNotCallable : BranchLabelsArg

/-- Python truthiness of the `branch_labels` argument: `None` and the empty
dict are falsy. -/
def truthyBL : BranchLabelsArg → Bool
  | .noneArg => false
  | .dict d => !d.isEmpty
  | .callable _ => true
  | .truthyNotCallable => true

/-- `conf2str` of `draw` (`_utils.py` lines 299-302): drop the decimal part
of an integral confidence.  The non-integral branch renders the rational
directly where Python formats the float. -/
def conf2str (q : Rat) : String :=
  if q.den = 1 then toString q.num else toString q.num ++ "/" ++ toString q.den

/-- The default `format_branch_label` of `draw` (`_utils.py` lines
304-322): with `show_confidence`, the slash-joined phyloXML `confidences`
when that attribute exists, else the single `confidence`, else nothing. -/
def defaultBranchLabel (show_confidence : Bool) (c : Clade) : Option String :=
  if show_confidence then
    match c.info.confidences with
    | some l => some (String.intercalate "/" (l.map conf2str))
    | none =>
      match c.info.confidence with
      | some v => some (conf2str v)
      | none => none
  else none

/-- The `format_branch_label` dispatch of `draw` (`_utils.py` lines
304-334): a falsy `branch_labels` selects the default confidence
formatter, a dict its `get`, a callable itself, and anything else raises
`TypeError`. -/
def selectBranchLabeler (bl : BranchLabelsArg) (show_confidence : Bool) :
    Except PyErr (Pos → Clade → Option String) :=
  if truthyBL bl = false then .ok (fun _ c => defaultBranchLabel show_confidence c)
  else
    match bl with
    | .dict d => .ok (fun p _ => mget d p)
    | .callable f => .ok (fun _ c => f c)
    | _ => .error (.typeError "branch_labels must be either a dict or a callable (function)")

/-- The matplotlib default `rcParams` line width, read by `draw`. -/
def rcLinesLinewidth : Rat := 3 / 2

def Clade.setColor : Clade → Option String → Clade
  | .node i cs, col => .node { i with color := col } cs

def Clade.setWidth : Clade → Option Rat → Clade
  | .node i cs, w => .node { i with width := w } cs

def cladeColorAt (t : Clade) (p : Pos) : Option (Option String) :=
  (subtreeAt t p).map (fun c => c.info.color)

/- The `draw_clade` closure of `draw` for the vertical orientation
(`_utils.py` lines 444-529).  Returns the buffered horizontal line
collection, the buffered vertical line collection, and the immediately
issued texts, in issue order.  The parent color/width cascade down the
recursion through the local `color`/`lw` arguments; no clade is mutated. -/
mutual
def drawCladeV (xs ys : List (Pos × Rat)) (labeler : Pos → Clade → Option String)
    (draw_labels align_labels : Bool) :
    Clade → Pos → Rat → String → Rat → List Event × List Event × List Event
  | c@(Clade.node info cs), p, x_start, color0, lw0 =>
    let x_here := (mget xs p).getD 0
    let y_here := (mget ys p).getD 0
    let xmax := maxVal xs
    let color := (info.color).getD color0
    let lw := match info.width with | some w => w * rcLinesLinewidth | none => lw0
    let hl := [Event.hline y_here x_start x_here color lw false]
    let hl := hl ++
      (if cs.isEmpty && align_labels then [Event.hline y_here x_here xmax color (lw - 1) true]
       else [])
    let label := labelOf c
    let tx :=
      if label ≠ "Clade" ∧ draw_labels then
        let xplc := if align_labels ∧ cs.isEmpty then xmax + xmax / 30 else x_here
        [Event.text xplc y_here (" " ++ label)]
      else []
    let tx := tx ++
      (if draw_labels then
        match labeler p c with
        | some s => if s = "" then [] else [Event.text ((x_start + x_here) / 2) y_here s]
        | none => []
       else [])
    match cs with
    | [] => (hl, [], tx)
    | _ :: _ =>
      let y_top := (mget ys (p ++ [0])).getD 0
      let y_bot := (mget ys (p ++ [cs.length - 1])).getD 0
      let vl := [Event.vline x_here y_bot y_top color lw false]
      let r := drawCladeVList xs ys labeler draw_labels align_labels cs p 0 x_here color lw
      (hl ++ r.1, vl ++ r.2.1, tx ++ r.2.2)
def drawCladeVList (xs ys : List (Pos × Rat)) (labeler : Pos → Clade → Option String)
    (draw_labels align_labels : Bool) :
    List Clade → Pos → Nat → Rat → String → Rat → List Event × List Event × List Event
  | [], _, _, _, _, _ => ([], [], [])
  | c :: cs, p, i, xstart, color, lw =>
    let r1 := drawCladeV xs ys labeler draw_labels align_labels c (p ++ [i]) xstart color lw
    let r2 := drawCladeVList xs ys labeler draw_labels align_labels cs p (i + 1) xstart color lw
    (r1.1 ++ r2.1, r1.2.1 ++ r2.2.1, r1.2.2 ++ r2.2.2)
end

/- The `draw_clade` closure of `draw` for the horizontal orientation
(`_utils.py` lines 531-606): coordinates swapped relative to the vertical
case, branch segments buffered in the vertical collection and the child
connector in the horizontal one.  The branch-label text reads
`y_posns[clade.clades[-1]]`, which raises `IndexError` on a terminal clade
whose branch label is truthy (`none` here). -/
mutual
def drawCladeH (xs ys : List (Pos × Rat)) (labeler : Pos → Clade → Option String)
    (draw_labels align_labels : Bool) :
    Clade → Pos → Rat → String → Rat → Option (List Event × List Event × List Event)
  | c@(Clade.node info cs), p, x_start, color0, lw0 => do
    let x_here := (mget xs p).getD 0
    let y_here := (mget ys p).getD 0
    let xmax := maxVal xs
    let color := (info.color).getD color0
    let lw := match info.width with | some w => w * rcLinesLinewidth | none => lw0
    let vl := [Event.vline y_here x_start x_here color lw false]
    let vl := vl ++
      (if cs.isEmpty && align_labels then [Event.vline y_here x_here xmax color (lw - 1) true]
       else [])
    let label := labelOf c
    let tx :=
      if label ≠ "Clade" ∧ draw_labels then
        let xplc := if align_labels ∧ cs.isEmpty then xmax + xmax / 30 else x_here
        [Event.text y_here xplc (" " ++ label)]
      else []
    let tx2 ←
      if draw_labels then
        match labeler p c with
        | some s =>
          if s = "" then some []
          else
            match cs with
            | [] => none
            | _ :: _ =>
              some [Event.text (((mget ys (p ++ [cs.length - 1])).getD 0 + y_here) / 2) x_here s]
        | none => some ([] : List Event)
      else some ([] : List Event)
    let tx := tx ++ tx2
    match cs with
    | [] => some ([], vl, tx)
    | _ :: _ =>
      let y_top := (mget ys (p ++ [0])).getD 0
      let y_bot := (mget ys (p ++ [cs.length - 1])).getD 0
      let hl := [Event.hline x_here y_bot y_top color lw false]
      let r ← drawCladeHList xs ys labeler draw_labels align_labels cs p 0 x_here color lw
      some (hl ++ r.1, vl ++ r.2.1, tx ++ r.2.2)
def drawCladeHList (xs ys : List (Pos × Rat)) (labeler : Pos → Clade → Option String)
    (draw_labels align_labels : Bool) :
    List Clade → Pos → Nat → Rat → String → Rat → Option (List Event × List Event × List Event)
  | [], _, _, _, _, _ => some ([], [], [])
  | c :: cs, p, i, xstart, color, lw => do
    let r1 ← drawCladeH xs ys labeler draw_labels align_labels c (p ++ [i]) xstart color lw
    let r2 ← drawCladeHList xs ys labeler draw_labels align_labels cs p (i + 1) xstart color lw
    some (r1.1 ++ r2.1, r1.2.1 ++ r2.2.1, r1.2.2 ++ r2.2.2)
end

/- Call skeleton of `draw_clade_polar` (`_utils.py` lines 609-702): each
clade issues an `axes.plot` for its radial segment (plus a leader when a
terminal is align-labelled), possibly a rotated label text (gated on
`clade.name`, not on the label function), and for an internal clade an
interpolated arc followed by the children.  The numeric geometry uses
π-scaled floats and scipy interpolation and is not carried by the
events. -/
mutual
def drawCladePolarSkel (draw_labels align_labels : Bool) : Clade → List Event
  | Clade.node info cs =>
    let plots := [Event.polarPlot] ++
      (if cs.isEmpty && align_labels then [Event.polarPlot] else [])
    let tx :=
      if info.name ≠ none ∧ info.name ≠ some "Clade" ∧ draw_labels then
        [Event.polarText ((info.name).getD "")]
      else []
    match cs with
    | [] => plots ++ tx
    | _ :: _ =>
      plots ++ tx ++ [Event.polarArc] ++ drawCladePolarSkelList draw_labels align_labels cs
def drawCladePolarSkelList (draw_labels align_labels : Bool) : List Clade → List Event
  | [] => []
  | c :: cs =>
    drawCladePolarSkel draw_labels align_labels c ++
      drawCladePolarSkelList draw_labels align_labels cs
end

/-- A passthrough pyplot keyword value of `draw`: one of the three accepted
iterable shapes, or a non-iterable value on which `list(value)` raises. -/
inductive KwVal where
  | tupleArg
  | dictArg
  | tupleDictArg
  | notIterable
deriving DecidableEq

def kwargErr (k : String) : PyErr :=
  .valueError ("Keyword argument " ++ k ++
    "=... is not in the format pyplot_option_name=(tuple), pyplot_option_name=(tuple, dict), or pyplot_option_name=(dict)")

/-- The passthrough-option loop of `draw` (`_utils.py` lines 765-780): each
iterable value becomes one pyplot call; the first non-iterable value
raises `ValueError` naming the argument, at which point the preceding
options have already been applied. -/
def procKwargs : List (String × KwVal) → List Event × Option PyErr
  | [] => ([], none)
  | (k, KwVal.notIterable) :: _ => ([], some (kwargErr k))
  | (k, _) :: rest =>
    let r := procKwargs rest
    (Event.pltOption k :: r.1, r.2)

/-- The configuration arguments of `draw` that this embedding models; the
`label_func`, `label_colors` and `axes` arguments keep their defaults
(`str`, `None`, `None`). -/
structure DrawCfg where
  orient_tree : String
  horizontal_direction : String
  vertical_direction : String
  branch_labels : BranchLabelsArg
  show_confidence : Bool
  draw_labels : Bool
  align_labels : Bool
  do_show : Bool
  kwargs : List (String × KwVal)

/-- The defaults of the `draw` signature (`_utils.py` lines 182-198). -/
def defaultCfg : DrawCfg :=
  { orient_tree := "vertical", horizontal_direction := "down",
    vertical_direction := "right", branch_labels := .noneArg,
    show_confidence := true, draw_labels := true, align_labels := false,
    do_show := true, kwargs := [] }

/-- Outcome of a `draw` call: the primitives issued to the plotting surface
before any exception, the exception if one escaped, and the input tree
after the call (`draw` never assigns to any clade attribute, so the tree
is returned unchanged). -/
structure DrawResult where
  events : List Event
  error : Option PyErr
  tree : PTree

def orientMsg : String := "orient_tree must be one of horizontal, vertical or circular"
def vdirMsg : String := "vertical_direction must be one of right or left"
def hdirMsg : String := "horizontal_direction must be one of up or down"

/-- The `draw` function (`_utils.py` lines 182-783): orientation and
direction validation first (lines 287-292), then the branch-label dispatch
(which may raise `TypeError`), the layout, the clade drawing pass for the
selected orientation, axis configuration, the title, the passthrough
pyplot options (validated only here, after drawing), and `show`.  When the
horizontal pass raises its `IndexError` the texts it issued before the
exception are not reconstructed. -/
def drawRun (cfg : DrawCfg) (t : PTree) : List Event × Option PyErr :=
  if cfg.orient_tree ∉ (["horizontal", "vertical", "circular"] : List String) then
    ⟨[], some (.valueError orientMsg)⟩
  else if cfg.orient_tree = "vertical" ∧
      cfg.vertical_direction ∉ (["right", "left"] : List String) then
    ⟨[], some (.valueError vdirMsg)⟩
  else if cfg.orient_tree = "horizontal" ∧
      cfg.horizontal_direction ∉ (["up", "down"] : List String) then
    ⟨[], some (.valueError hdirMsg)⟩
  else
    match selectBranchLabeler cfg.branch_labels cfg.show_confidence with
    | .error e => ⟨[], some e⟩
    | .ok labeler =>
      let xs := get_x_positions t.root
      let ys := (get_y_positions t.root).getD []
      let drawn : Option (List Event) :=
        if cfg.orient_tree = "vertical" then
          let r := drawCladeV xs ys labeler cfg.draw_labels cfg.align_labels
            t.root [] 0 "k" rcLinesLinewidth
          some (r.2.2 ++ r.1 ++ r.2.1 ++
            [Event.axisSet "xlabel", Event.axisSet "ylabel",
             Event.axisSet "ylim", Event.axisSet "xlim"])
        else if cfg.orient_tree = "horizontal" then
          match drawCladeH xs ys labeler cfg.draw_labels cfg.align_labels
              t.root [] 0 "k" rcLinesLinewidth with
          | some r =>
            some (r.2.2 ++ r.1 ++ r.2.1 ++
              [Event.axisSet "ylabel", Event.axisSet "xlabel",
               Event.axisSet "xlim", Event.axisSet "ylim"])
          | none => none
        else
          some (drawCladePolarSkel cfg.draw_labels cfg.align_labels t.root ++
            [Event.axisSet "ylim"])
      match drawn with
      | none => ⟨[], some .indexError⟩
      | some evs =>
        let evs := evs ++
          (match t.name with
           | some s => if s = "" then [] else [Event.setTitle s]
           | none => [])
        let kw := procKwargs cfg.kwargs
        match kw.2 with
        | some e => ⟨evs ++ kw.1, some e⟩
        | none => ⟨evs ++ kw.1 ++ (if cfg.do_show then [Event.showFig] else []), none⟩

/-- The `draw` call outcome: `draw` never assigns to any clade attribute
(`draw_clade` reads `clade.color`/`clade.width` into locals and passes them
down), so the input tree is returned unchanged alongside the issued events
and any escaped exception. -/
def draw (cfg : DrawCfg) (t : PTree) : DrawResult :=
  ⟨(drawRun cfg t).1, (drawRun cfg t).2, t⟩

/-- The edge attributes recorded by the graph exporter. -/
structure EdgeAttrs where
  weight : Rat
  color : Option String
  width : Option Rat
deriving DecidableEq

/-- `add_edge` of `to_networkx` for networkx ≥ 1.0 (`_utils.py` lines
42-57): edge weight `branch_length or 1.0` (zero is falsy), the edge color
and width from the child when it has them, otherwise cascaded from the
parent — in which case the child clade itself is mutated to carry the
inherited value.  Returns the edge attributes and the child after the
call. -/
def add_edge (n1 n2 : Clade) : EdgeAttrs × Clade :=
  let weight : Rat :=
    match n2.info.branch_length with
    | some b => if b = 0 then 1 else b
    | none => 1
  let colorStep : Option String × Clade :=
    match n2.info.color with
    | some c2 => (some c2, n2)
    | none =>
      match n1.info.color with
      | some c1 => (some c1, n2.setColor (some c1))
      | none => (none, n2)
  let widthStep : Option Rat × Clade :=
    match n2.info.width with
    | some w2 => (some w2, colorStep.2)
    | none =>
      match n1.info.width with
      | some w1 => (some w1, Clade.setWidth colorStep.2 (some w1))
      | none => (none, colorStep.2)
  ({ weight := weight, color := colorStep.1, width := widthStep.1 }, widthStep.2)

/-! ### Lookup and position infrastructure -/

theorem mget_cons {α : Type} (kv : Pos × α) (m : List (Pos × α)) (k : Pos) :
    mget (kv :: m) k = if kv.1 = k then some kv.2 else mget m k := rfl

theorem mget_append {α : Type} (l1 l2 : List (Pos × α)) (k : Pos) :
    mget (l1 ++ l2) k =
      match mget l1 k with
      | some v => some v
      | none => mget l2 k := by
  induction l1 with
  | nil => simp [mget]
  | cons kv l1 ih =>
    by_cases h : kv.1 = k
    · simp [mget, h]
    · simp [mget, h, ih]

theorem mget_eq_none_iff {α : Type} (m : List (Pos × α)) (k : Pos) :
    mget m k = none ↔ k ∉ m.map Prod.fst := by
  induction m with
  | nil => simp [mget]
  | cons kv m ih =>
    by_cases h : kv.1 = k
    · simp [mget, h]
    · simp [mget, h, ih, Ne.symm h]

theorem mget_isSome_iff {α : Type} (m : List (Pos × α)) (k : Pos) :
    (mget m k).isSome ↔ k ∈ m.map Prod.fst := by
  induction m with
  | nil => simp [mget]
  | cons kv m ih =>
    by_cases h : kv.1 = k
    · simp [mget, h]
    · simp [mget, h, ih, Ne.symm h]

theorem mget_mem {α : Type} (m : List (Pos × α)) (k : Pos) (v : α)
    (h : mget m k = some v) : (k, v) ∈ m := by
  induction m with
  | nil => simp [mget] at h
  | cons kv m ih =>
    by_cases hk : kv.1 = k
    · simp [mget, hk] at h
      cases kv
      simp_all
    · simp [mget, hk] at h
      exact List.mem_cons_of_mem _ (ih h)

theorem subtreeAt_nil (c : Clade) : subtreeAt c [] = some c := by
  cases c; rfl

theorem subtreeAt_cons (i : CladeInfo) (cs : List Clade) (j : Nat) (r : Pos) :
    subtreeAt (Clade.node i cs) (j :: r) =
      match cs[j]? with
      | some c => subtreeAt c r
      | none => none := rfl

theorem isTipAt_nil_iff (i : CladeInfo) (cs : List Clade) :
    isTipAt (Clade.node i cs) [] ↔ cs = [] := by
  constructor
  · rintro ⟨j, h⟩
    rw [subtreeAt_nil] at h
    cases h
    rfl
  · rintro rfl
    exact ⟨i, by rw [subtreeAt_nil]⟩

theorem isIntAt_nil_iff (i : CladeInfo) (cs : List Clade) :
    isIntAt (Clade.node i cs) [] ↔ cs ≠ [] := by
  constructor
  · rintro ⟨j, d, ds, h⟩ rfl
    rw [subtreeAt_nil] at h
    cases h
  · intro h
    match cs, h with
    | d :: ds, _ => exact ⟨i, d, ds, by rw [subtreeAt_nil]⟩

theorem isTipAt_cons_iff (i : CladeInfo) (cs : List Clade) (j : Nat) (r : Pos) :
    isTipAt (Clade.node i cs) (j :: r) ↔ ∃ c, cs[j]? = some c ∧ isTipAt c r := by
  unfold isTipAt
  rw [subtreeAt_cons]
  cases h : cs[j]? with
  | none => simp
  | some c => simp

theorem isIntAt_cons_iff (i : CladeInfo) (cs : List Clade) (j : Nat) (r : Pos) :
    isIntAt (Clade.node i cs) (j :: r) ↔ ∃ c, cs[j]? = some c ∧ isIntAt c r := by
  unfold isIntAt
  rw [subtreeAt_cons]
  cases h : cs[j]? with
  | none => simp
  | some c => simp

theorem tip_or_int (c : Clade) (r : Pos) (h : (subtreeAt c r).isSome) :
    isTipAt c r ∨ isIntAt c r := by
  rw [Option.isSome_iff_exists] at h
  obtain ⟨d, hd⟩ := h
  match d with
  | Clade.node j [] => exact Or.inl ⟨j, hd⟩
  | Clade.node j (e :: es) => exact Or.inr ⟨j, e, es, hd⟩

theorem not_tip_and_int (c : Clade) (r : Pos) : ¬(isTipAt c r ∧ isIntAt c r) := by
  rintro ⟨⟨j, hj⟩, ⟨j2, d, ds, hd⟩⟩
  rw [hj] at hd
  cases hd

theorem isTipAt_leaf_iff (i : CladeInfo) (r : Pos) :
    isTipAt (Clade.node i []) r ↔ r = [] := by
  cases r with
  | nil => simp [isTipAt_nil_iff]
  | cons j r => simp [isTipAt_cons_iff]

/-! ### Characterisation of the terminal positions -/

mutual
theorem mem_termPosAux : ∀ (c : Clade) (p q : Pos),
    q ∈ termPosAux c p ↔ ∃ r, q = p ++ r ∧ isTipAt c r
  | Clade.node i [], p, q => by
    simp only [termPosAux, List.mem_singleton, isTipAt_leaf_iff]
    constructor
    · rintro rfl
      exact ⟨[], by simp⟩
    · rintro ⟨r, rfl, rfl⟩
      simp
  | Clade.node i (c :: cs), p, q => by
    rw [termPosAux, mem_termPosList (c :: cs) p 0 q]
    constructor
    · rintro ⟨j, c', r, hj, rfl, htip⟩
      exact ⟨j :: r, by simp, (isTipAt_cons_iff i (c :: cs) j r).2 ⟨c', hj, htip⟩⟩
    · rintro ⟨r, rfl, htip⟩
      match r with
      | [] =>
        rw [isTipAt_nil_iff] at htip
        cases htip
      | j :: r =>
        obtain ⟨c', hj, htip'⟩ := (isTipAt_cons_iff i (c :: cs) j r).1 htip
        exact ⟨j, c', r, hj, by simp, htip'⟩
theorem mem_termPosList : ∀ (cs : List Clade) (p : Pos) (i : Nat) (q : Pos),
    q ∈ termPosList cs p i ↔
      ∃ j c' r, cs[j]? = some c' ∧ q = p ++ [i + j] ++ r ∧ isTipAt c' r
  | [], p, i, q => by simp [termPosList]
  | c :: cs, p, i, q => by
    rw [termPosList, List.mem_append, mem_termPosAux c (p ++ [i]) q,
      mem_termPosList cs p (i + 1) q]
    constructor
    · rintro (⟨r, rfl, htip⟩ | ⟨j, c', r, hj, rfl, htip⟩)
      · exact ⟨0, c, r, by simp, by simp, htip⟩
      · refine ⟨j + 1, c', r, by simpa using hj, ?_, htip⟩
        have : i + (j + 1) = i + 1 + j := by omega
        rw [this]
    · rintro ⟨j, c', r, hj, rfl, htip⟩
      match j with
      | 0 =>
        simp only [List.getElem?_cons_zero, Option.some.injEq] at hj
        subst hj
        exact Or.inl ⟨r, by simp, htip⟩
      | j + 1 =>
        simp only [List.getElem?_cons_succ] at hj
        refine Or.inr ⟨j, c', r, hj, ?_, htip⟩
        have : i + (j + 1) = i + 1 + j := by omega
        rw [this]
end

mutual
theorem nodup_termPosAux : ∀ (c : Clade) (p : Pos), (termPosAux c p).Nodup
  | Clade.node i [], p => by simp [termPosAux]
  | Clade.node i (c :: cs), p => by
    rw [termPosAux]
    exact nodup_termPosList (c :: cs) p 0
theorem nodup_termPosList : ∀ (cs : List Clade) (p : Pos) (i : Nat),
    (termPosList cs p i).Nodup
  | [], p, i => by simp [termPosList]
  | c :: cs, p, i => by
    rw [termPosList, List.nodup_append]
    refine ⟨nodup_termPosAux c (p ++ [i]), nodup_termPosList cs p (i + 1), ?_⟩
    intro q hq1 hq2
    obtain ⟨r, he1, _⟩ := (mem_termPosAux c (p ++ [i]) q).1 hq1
    obtain ⟨j, c', r', hj, he2, _⟩ := (mem_termPosList cs p (i + 1) q).1 hq2
    rw [he1] at he2
    rw [List.append_assoc, List.append_assoc] at he2
    have h2 := List.append_cancel_left he2
    simp only [List.singleton_append, List.cons.injEq] at h2
    omega
end

theorem nodup_termPositions (t : Clade) : (termPositions t).Nodup :=
  nodup_termPosAux t []

theorem mem_termPositions (t : Clade) (q : Pos) :
    q ∈ termPositions t ↔ isTipAt t q := by
  rw [termPositions, mem_termPosAux]
  simp

/-! ### Looking up a tip in the seeded height maps -/

theorem mget_enumFrom_map {α : Type} (g : Nat → α) :
    ∀ (l : List Pos) (s k : Nat) (hk : k < l.length), l.Nodup →
      mget ((List.enumFrom s l).map (fun iq => (iq.2, g iq.1))) (l.get ⟨k, hk⟩) =
        some (g (s + k))
  | [], s, k, hk, _ => by simp at hk
  | a :: l, s, 0, hk, hnd => by
    simp [List.enumFrom, mget]
  | a :: l, s, k + 1, hk, hnd => by
    simp only [List.enumFrom, List.map_cons, mget_cons]
    have hk' : k < l.length := by simpa using hk
    have hne : a ≠ l.get ⟨k, hk'⟩ := by
      intro h
      exact (List.nodup_cons.1 hnd).1 (h ▸ List.get_mem l k hk')
    have hget : (a :: l).get ⟨k + 1, hk⟩ = l.get ⟨k, hk'⟩ := rfl
    rw [hget, if_neg hne, mget_enumFrom_map g l (s + 1) k hk' (List.nodup_cons.1 hnd).2]
    have harith : s + 1 + k = s + (k + 1) := by omega
    rw [harith]

theorem mget_rowBase (t : Clade) (k : Nat) (hk : k < (termPositions t).length) :
    mget ((termPositions t).enum.map (fun iq => (iq.2, 2 * iq.1)))
      ((termPositions t).get ⟨k, hk⟩) = some (2 * k) := by
  rw [List.enum]
  simpa using mget_enumFrom_map (fun i => 2 * i) (termPositions t) 0 k hk
    (nodup_termPositions t)

theorem mget_yBase (t : Clade) (n : Rat) (hn : n = (termPositions t).length)
    (k : Nat) (hk : k < (termPositions t).length) :
    mget (((termPositions t).reverse.enum).map (fun iq => (iq.2, n - (iq.1 : Rat))))
      ((termPositions t).get ⟨k, hk⟩) = some ((k : Rat) + 1) := by
  have hlen : (termPositions t).reverse.length = (termPositions t).length :=
    List.length_reverse _
  have hk' : (termPositions t).length - 1 - k < (termPositions t).reverse.length := by
    rw [hlen]; omega
  have hget : (termPositions t).reverse.get ⟨(termPositions t).length - 1 - k, hk'⟩ =
      (termPositions t).get ⟨k, hk⟩ := by
    rw [List.get_eq_getElem, List.get_eq_getElem, List.getElem_reverse]
    simp only
    congr 1
    omega
  rw [← hget, List.enum]
  rw [mget_enumFrom_map (fun i => n - (i : Rat)) _ 0 _ hk'
    (List.nodup_reverse.2 (nodup_termPositions t))]
  have hidx : 0 + ((termPositions t).length - 1 - k) =
      (termPositions t).length - (1 + k) := by omega
  rw [hidx]
  have hval : n - (((termPositions t).length - (1 + k) : Nat) : Rat) = (k : Rat) + 1 := by
    rw [hn, Nat.cast_sub (by omega : 1 + k ≤ (termPositions t).length)]
    push_cast
    ring
  rw [hval]

/-! ### The depth mappings -/

mutual
theorem depthsAux_key : ∀ (unit : Bool) (c : Clade) (p : Pos) (d : Rat) (q : Pos) (v : Rat),
    (q, v) ∈ depthsAux unit c p d → ∃ r, q = p ++ r
  | unit, Clade.node i cs, p, d, q, v => by
    intro h
    rw [depthsAux] at h
    rcases List.mem_cons.1 h with h | h
    · exact ⟨[], by simpa using congrArg Prod.fst h⟩
    · obtain ⟨j, r, _, hq⟩ := depthsList_key unit cs p 0 d q v h
      exact ⟨[j] ++ r, by simpa using hq⟩
theorem depthsList_key : ∀ (unit : Bool) (cs : List Clade) (p : Pos) (i : Nat) (d : Rat)
    (q : Pos) (v : Rat),
    (q, v) ∈ depthsList unit cs p i d → ∃ j r, i ≤ j ∧ q = p ++ [j] ++ r
  | unit, [], p, i, d, q, v => by intro h; simp [depthsList] at h
  | unit, c :: cs, p, i, d, q, v => by
    intro h
    rw [depthsList] at h
    rcases List.mem_append.1 h with h | h
    · obtain ⟨r, hq⟩ := depthsAux_key unit c (p ++ [i]) (d + edgeStep unit c) q v h
      exact ⟨i, r, le_refl i, by simpa [List.append_assoc] using hq⟩
    · obtain ⟨j, r, hij, hq⟩ := depthsList_key unit cs p (i + 1) d q v h
      exact ⟨j, r, by omega, hq⟩
end

mutual
theorem mget_depthsAux_unit : ∀ (c : Clade) (p : Pos) (d : Rat) (r : Pos),
    (subtreeAt c r).isSome →
      mget (depthsAux true c p d) (p ++ r) = some (d + (r.length : Rat))
  | Clade.node i cs, p, d, [], _ => by
    simp [depthsAux, mget]
  | Clade.node i cs, p, d, j :: r, hs => by
    rw [depthsAux, mget_cons]
    have hne : p ≠ p ++ j :: r := by
      intro h
      simpa using congrArg List.length h
    rw [if_neg hne]
    rw [subtreeAt_cons] at hs
    cases hj : cs[j]? with
    | none => rw [hj] at hs; simp at hs
    | some c' =>
      rw [hj] at hs
      simp only at hs
      have := mget_depthsList_unit cs p 0 d j c' r hj hs
      simp only [Nat.zero_add] at this
      have hkey : p ++ j :: r = p ++ [j] ++ r := by simp
      rw [hkey, this]
      congr 1
      simp only [List.length_cons]
      push_cast
      ring
theorem mget_depthsList_unit : ∀ (cs : List Clade) (p : Pos) (i : Nat) (d : Rat)
    (j : Nat) (c' : Clade) (r : Pos), cs[j]? = some c' → (subtreeAt c' r).isSome →
      mget (depthsList true cs p i d) (p ++ [i + j] ++ r) = some (d + 1 + (r.length : Rat))
  | [], p, i, d, j, c', r, hj, _ => by simp at hj
  | c :: cs, p, i, d, 0, c', r, hj, hs => by
    have hc : c = c' := by simpa using hj
    rw [depthsList, mget_append]
    have h1 : mget (depthsAux true c (p ++ [i]) (d + edgeStep true c)) ((p ++ [i]) ++ r) =
        some (d + edgeStep true c + (r.length : Rat)) :=
      mget_depthsAux_unit c (p ++ [i]) (d + edgeStep true c) r (hc ▸ hs)
    have hkey : p ++ [i + 0] ++ r = (p ++ [i]) ++ r := by simp
    rw [hkey, h1]
    simp [edgeStep]
  | c :: cs, p, i, d, j + 1, c', r, hj, hs => by
    simp only [List.getElem?_cons_succ] at hj
    rw [depthsList, mget_append]
    have hnone : mget (depthsAux true c (p ++ [i]) (d + edgeStep true c))
        (p ++ [i + (j + 1)] ++ r) = none := by
      cases hm : mget (depthsAux true c (p ++ [i]) (d + edgeStep true c))
          (p ++ [i + (j + 1)] ++ r) with
      | none => rfl
      | some v =>
        obtain ⟨r', hr'⟩ := depthsAux_key true c (p ++ [i]) (d + edgeStep true c) _ v
          (mget_mem _ _ _ hm)
        rw [List.append_assoc, List.append_assoc] at hr'
        have := List.append_cancel_left hr'
        simp only [List.singleton_append, List.cons.injEq] at this
        omega
    rw [hnone]
    have := mget_depthsList_unit cs p (i + 1) d j c' r hj hs
    have hidx : i + (j + 1) = i + 1 + j := by omega
    rw [hidx]
    exact this
end

theorem mget_tree_depths_root (unit : Bool) (t : Clade) :
    mget (tree_depths unit t) [] = some 0 := by
  cases t
  simp [tree_depths, depthsAux, mget]

theorem mget_tree_depths_unit (t : Clade) (r : Pos) (h : (subtreeAt t r).isSome) :
    mget (tree_depths true t) r = some ((r.length : Rat)) := by
  have := mget_depthsAux_unit t [] 0 r h
  simpa using this

/-! ### max over the depth values -/

theorem foldl_max_init (l : List (Pos × Rat)) (a : Rat) :
    a ≤ l.foldl (fun x y => max x y.2) a := by
  induction l generalizing a with
  | nil => simp
  | cons kv l ih => exact le_trans (le_max_left a kv.2) (ih (max a kv.2))

theorem foldl_max_mem (l : List (Pos × Rat)) (a : Rat) (kv : Pos × Rat) (h : kv ∈ l) :
    kv.2 ≤ l.foldl (fun x y => max x y.2) a := by
  induction l generalizing a with
  | nil => simp at h
  | cons kv' l ih =>
    rcases List.mem_cons.1 h with rfl | h
    · exact le_trans (le_max_right a kv.2) (foldl_max_init l (max a kv.2))
    · exact ih (max a kv'.2) h

theorem le_maxVal (m : List (Pos × Rat)) (k : Pos) (v : Rat) (h : (k, v) ∈ m) :
    v ≤ maxVal m := by
  match m, h with
  | kv :: rest, h =>
    rw [maxVal]
    rcases List.mem_cons.1 h with h | h
    · have : v = kv.2 := by rw [← h]
      rw [this]
      exact foldl_max_init rest kv.2
    · exact foldl_max_mem rest kv.2 (k, v) h

/-! ### Behaviour of the `calc_row` recursion -/

/-- The key `q` lies in the internal-clade region of the subtree `c`
planted at `p` (the set of keys `calc_row` inserts). -/
def keyInSub (c : Clade) (p q : Pos) : Prop :=
  ∃ r, q = p ++ r ∧ isIntAt c r

/-- The key `q` lies in the internal-clade region of one of the sibling
subtrees `cs` planted at `p` with child indices starting at `i`. -/
def keyInSubList (cs : List Clade) (p : Pos) (i : Nat) (q : Pos) : Prop :=
  ∃ j c' r, cs[j]? = some c' ∧ isIntAt c' r ∧ q = p ++ [i + j] ++ r

theorem self_ne_append (p l : Pos) (h : l ≠ []) : p ≠ p ++ l := by
  intro he
  have hlen := congrArg List.length he
  simp only [List.length_append] at hlen
  exact h (List.eq_nil_of_length_eq_zero (by omega))

theorem keyShift (p : Pos) (i j : Nat) (r : Pos) :
    p ++ [i + (j + 1)] ++ r = p ++ [i + 1 + j] ++ r := by
  have : i + (j + 1) = i + 1 + j := by omega
  rw [this]

theorem keyShift0 (p : Pos) (i j : Nat) : p ++ [i + (j + 1)] = p ++ [i + 1 + j] := by
  have : i + (j + 1) = i + 1 + j := by omega
  rw [this]

theorem mget_cons_longer {α : Type} (p : Pos) (v : α) (m : List (Pos × α)) (k : Pos)
    (h : p.length < k.length) : mget ((p, v) :: m) k = mget m k := by
  simp only [mget_cons]
  rw [if_neg]
  intro he
  rw [← he] at h
  omega

theorem keyInSubList_shift (c : Clade) (cs : List Clade) (p : Pos) (i : Nat) (q : Pos)
    (h : keyInSubList cs p (i + 1) q) : keyInSubList (c :: cs) p i q := by
  obtain ⟨j, c', r, hj, hint, rfl⟩ := h
  exact ⟨j + 1, c', r, by simpa using hj, hint, (keyShift p i j r).symm⟩

theorem keyInSubList_head (c : Clade) (cs : List Clade) (p : Pos) (i : Nat) (q : Pos)
    (h : keyInSub c (p ++ [i]) q) : keyInSubList (c :: cs) p i q := by
  obtain ⟨r, rfl, hint⟩ := h
  exact ⟨0, c, r, by simp, hint, by simp⟩

theorem not_keyInSubList_under_head (cs : List Clade) (p : Pos) (i : Nat) (r' : Pos) :
    ¬ keyInSubList cs p (i + 1) ((p ++ [i]) ++ r') := by
  rintro ⟨j, c', r, hj, hint, heq⟩
  rw [List.append_assoc, List.append_assoc] at heq
  have h2 := List.append_cancel_left heq
  simp only [List.singleton_append, List.cons.injEq] at h2
  omega

mutual
theorem calcRow_spec {α : Type} (mid : α → α → α) :
    ∀ (c : Clade) (p : Pos) (m : List (Pos × α)),
      isIntAt c [] →
      (∀ r, isTipAt c r → (mget m (p ++ r)).isSome) →
      (∀ r, isIntAt c r → mget m (p ++ r) = none) →
      ∃ m', calcRow mid c p m = some m' ∧
        (∀ q, ¬ keyInSub c p q → mget m' q = mget m q) ∧
        (∀ r jj cc ccs, subtreeAt c r = some (Clade.node jj (cc :: ccs)) →
          ∃ a b, mget m' (p ++ r ++ [0]) = some a ∧
            mget m' (p ++ r ++ [ccs.length]) = some b ∧
            mget m' (p ++ r) = some (mid a b))
  | Clade.node info [], p, m => by
    intro hint
    rw [isIntAt_nil_iff] at hint
    exact absurd rfl hint
  | Clade.node info (d :: ds), p, m => by
    intro _ htips hints
    have Hl1 : ∀ j c' r, (d :: ds)[j]? = some c' → isTipAt c' r →
        (mget m (p ++ [0 + j] ++ r)).isSome := by
      intro j c' r hj htip
      have : isTipAt (Clade.node info (d :: ds)) (j :: r) :=
        (isTipAt_cons_iff info (d :: ds) j r).2 ⟨c', hj, htip⟩
      have h := htips (j :: r) this
      simpa [List.append_assoc] using h
    have Hl2 : ∀ j c' r, (d :: ds)[j]? = some c' → isIntAt c' r →
        mget m (p ++ [0 + j] ++ r) = none := by
      intro j c' r hj hi
      have : isIntAt (Clade.node info (d :: ds)) (j :: r) :=
        (isIntAt_cons_iff info (d :: ds) j r).2 ⟨c', hj, hi⟩
      have h := hints (j :: r) this
      simpa [List.append_assoc] using h
    obtain ⟨m1, hrun, hpres, hmids, hsome⟩ :=
      calcRowList_spec mid (d :: ds) p 0 m Hl1 Hl2
    have ha0 : (mget m1 (p ++ [0 + 0])).isSome := hsome 0 d (by simp)
    have hlast : (d :: ds)[ds.length]? = some ((d :: ds).getLast (by simp)) := by
      rw [List.getElem?_eq_getElem (by simp)]
      rw [List.getLast_eq_getElem]
      simp
    have hb0 : (mget m1 (p ++ [0 + ds.length])).isSome :=
      hsome ds.length _ hlast
    obtain ⟨a, ha⟩ := Option.isSome_iff_exists.1 (by simpa using ha0)
    obtain ⟨b, hb⟩ := Option.isSome_iff_exists.1 (by simpa using hb0)
    have hcalc : calcRow mid (Clade.node info (d :: ds)) p m =
        some ((p, mid a b) :: m1) := by
      rw [calcRow]
      simp [hrun, ha, hb]
    refine ⟨(p, mid a b) :: m1, hcalc, ?_, ?_⟩
    · intro q hq
      have hqp : q ≠ p := by
        intro h
        exact hq ⟨[], by simp [h], (isIntAt_nil_iff info (d :: ds)).2 (by simp)⟩
      simp only [mget_cons]
      rw [if_neg (fun h => hqp h.symm)]
      refine hpres q ?_
      intro hk
      obtain ⟨j, c', r, hj, hi, rfl⟩ := hk
      exact hq ⟨j :: r, by simp [List.append_assoc], (isIntAt_cons_iff _ _ j r).2 ⟨c', by simpa using hj, hi⟩⟩
    · intro r jj cc ccs hsub
      match r with
      | [] =>
        rw [subtreeAt_nil] at hsub
        have hinj := Option.some.inj hsub
        have hcc : cc :: ccs = d :: ds := (Clade.node.inj hinj).2.symm
        have hccs : ccs.length = ds.length := by
          have := congrArg List.length hcc
          simpa using this
        refine ⟨a, b, ?_, ?_, ?_⟩
        · rw [mget_cons_longer p _ m1 _ (by simp)]
          simpa using ha
        · rw [mget_cons_longer p _ m1 _ (by simp)]
          simp only [List.append_nil]
          rw [hccs]
          exact hb
        · simp [mget_cons]
      | j :: r' =>
        have hjc : ∃ c', (d :: ds)[j]? = some c' ∧ subtreeAt c' r' = some (Clade.node jj (cc :: ccs)) := by
          rw [subtreeAt_cons] at hsub
          cases hj : (d :: ds)[j]? with
          | none => rw [hj] at hsub; simp at hsub
          | some c' => rw [hj] at hsub; exact ⟨c', rfl, hsub⟩
        obtain ⟨c', hj, hsub'⟩ := hjc
        obtain ⟨a', b', ha', hb', hmid'⟩ := hmids j c' r' jj cc ccs hj hsub'
        have hlift : ∀ (x : Pos) (v : α), mget m1 (p ++ [0 + j] ++ r' ++ x) = some v →
            mget ((p, mid a b) :: m1) (p ++ (j :: r') ++ x) = some v := by
          intro x v hv
          rw [mget_cons_longer p _ m1 _ (by simp)]
          have hkey : p ++ (j :: r') ++ x = p ++ [0 + j] ++ r' ++ x := by
            simp [List.append_assoc]
          rw [hkey]
          exact hv
        refine ⟨a', b', hlift [0] a' ha', hlift [ccs.length] b' hb', ?_⟩
        have hm := hlift [] (mid a' b') (by simpa using hmid')
        simpa using hm
theorem calcRowList_spec {α : Type} (mid : α → α → α) :
    ∀ (cs : List Clade) (p : Pos) (i : Nat) (m : List (Pos × α)),
      (∀ j c' r, cs[j]? = some c' → isTipAt c' r → (mget m (p ++ [i + j] ++ r)).isSome) →
      (∀ j c' r, cs[j]? = some c' → isIntAt c' r → mget m (p ++ [i + j] ++ r) = none) →
      ∃ m', calcRowList mid cs p i m = some m' ∧
        (∀ q, ¬ keyInSubList cs p i q → mget m' q = mget m q) ∧
        (∀ j c' r jj cc ccs, cs[j]? = some c' →
          subtreeAt c' r = some (Clade.node jj (cc :: ccs)) →
          ∃ a b, mget m' (p ++ [i + j] ++ r ++ [0]) = some a ∧
            mget m' (p ++ [i + j] ++ r ++ [ccs.length]) = some b ∧
            mget m' (p ++ [i + j] ++ r) = some (mid a b)) ∧
        (∀ j c', cs[j]? = some c' → (mget m' (p ++ [i + j])).isSome)
  | [], p, i, m => by
    intro _ _
    refine ⟨m, rfl, fun q _ => rfl, ?_, ?_⟩
    · intro j c' r jj cc ccs hj
      simp at hj
    · intro j c' hj
      simp at hj
  | Clade.node i0 [] :: cs', p, i, m => by
    intro H1 H2
    have htip0 : (mget m (p ++ [i])).isSome := by
      have := H1 0 (Clade.node i0 []) [] (by simp) ((isTipAt_nil_iff i0 []).2 rfl)
      simpa using this
    have H1' : ∀ j c' r, cs'[j]? = some c' → isTipAt c' r →
        (mget m (p ++ [i + 1 + j] ++ r)).isSome := by
      intro j c' r hj htip
      have := H1 (j + 1) c' r (by simpa using hj) htip
      rwa [keyShift] at this
    have H2' : ∀ j c' r, cs'[j]? = some c' → isIntAt c' r →
        mget m (p ++ [i + 1 + j] ++ r) = none := by
      intro j c' r hj hi
      have := H2 (j + 1) c' r (by simpa using hj) hi
      rwa [keyShift] at this
    obtain ⟨m2, hrun2, hpres2, hmid2, hsome2⟩ := calcRowList_spec mid cs' p (i + 1) m H1' H2'
    have hrun : calcRowList mid (Clade.node i0 [] :: cs') p i m = some m2 := by
      rw [calcRowList]
      simp only [htip0, if_pos, Option.some_bind]
      exact hrun2
    refine ⟨m2, hrun, ?_, ?_, ?_⟩
    · intro q hq
      exact hpres2 q (fun h => hq (keyInSubList_shift _ cs' p i q h))
    · intro j c' r jj cc ccs hj hsub
      match j with
      | 0 =>
        have hc' : c' = Clade.node i0 [] := by simpa using hj.symm
        subst hc'
        exfalso
        match r, hsub with
        | [], hsub => rw [subtreeAt_nil] at hsub; simp [Clade.node.injEq] at hsub
        | x :: r', hsub => rw [subtreeAt_cons] at hsub; simp at hsub
      | j + 1 =>
        obtain ⟨a, b, ha, hb, hm⟩ := hmid2 j c' r jj cc ccs (by simpa using hj) hsub
        rw [keyShift]
        exact ⟨a, b, ha, hb, hm⟩
    · intro j c' hj
      match j with
      | 0 =>
        have hpr : ¬ keyInSubList cs' p (i + 1) (p ++ [i]) := by
          have := not_keyInSubList_under_head cs' p i []
          simpa using this
        have := hpres2 (p ++ [i]) hpr
        simp only [Nat.add_zero]
        rw [this]
        exact htip0
      | j + 1 =>
        have := hsome2 j c' (by simpa using hj)
        rwa [← keyShift0 p i j] at this
  | Clade.node i0 (e :: es) :: cs', p, i, m => by
    intro H1 H2
    have hc : Clade.node i0 (e :: es) = Clade.node i0 (e :: es) := rfl
    have hint0 : mget m (p ++ [i]) = none := by
      have := H2 0 (Clade.node i0 (e :: es)) [] (by simp)
        ((isIntAt_nil_iff i0 (e :: es)).2 (by simp))
      simpa using this
    have htipsC : ∀ r, isTipAt (Clade.node i0 (e :: es)) r →
        (mget m ((p ++ [i]) ++ r)).isSome := by
      intro r htip
      have := H1 0 (Clade.node i0 (e :: es)) r (by simp) htip
      simpa [List.append_assoc] using this
    have hintsC : ∀ r, isIntAt (Clade.node i0 (e :: es)) r →
        mget m ((p ++ [i]) ++ r) = none := by
      intro r hi
      have := H2 0 (Clade.node i0 (e :: es)) r (by simp) hi
      simpa [List.append_assoc] using this
    obtain ⟨m1, hrunC, hpresC, hmidC⟩ :=
      calcRow_spec mid (Clade.node i0 (e :: es)) (p ++ [i]) m
        ((isIntAt_nil_iff i0 (e :: es)).2 (by simp)) htipsC hintsC
    have H1' : ∀ j c' r, cs'[j]? = some c' → isTipAt c' r →
        (mget m1 (p ++ [i + 1 + j] ++ r)).isSome := by
      intro j c' r hj htip
      have hpr : ¬ keyInSub (Clade.node i0 (e :: es)) (p ++ [i]) (p ++ [i + 1 + j] ++ r) := by
        rintro ⟨r'', heq, _⟩
        rw [List.append_assoc, List.append_assoc] at heq
        have h2 := List.append_cancel_left heq
        simp only [List.singleton_append, List.cons.injEq] at h2
        omega
      rw [hpresC _ hpr]
      have := H1 (j + 1) c' r (by simpa using hj) htip
      rwa [keyShift] at this
    have H2' : ∀ j c' r, cs'[j]? = some c' → isIntAt c' r →
        mget m1 (p ++ [i + 1 + j] ++ r) = none := by
      intro j c' r hj hi
      have hpr : ¬ keyInSub (Clade.node i0 (e :: es)) (p ++ [i]) (p ++ [i + 1 + j] ++ r) := by
        rintro ⟨r'', heq, _⟩
        rw [List.append_assoc, List.append_assoc] at heq
        have h2 := List.append_cancel_left heq
        simp only [List.singleton_append, List.cons.injEq] at h2
        omega
      rw [hpresC _ hpr]
      have := H2 (j + 1) c' r (by simpa using hj) hi
      rwa [keyShift] at this
    obtain ⟨m2, hrun2, hpres2, hmid2, hsome2⟩ := calcRowList_spec mid cs' p (i + 1) m1 H1' H2'
    have hrun : calcRowList mid (Clade.node i0 (e :: es) :: cs') p i m = some m2 := by
      rw [calcRowList]
      simp only [hint0, Option.isSome_none, Bool.false_eq_true, if_false, hrunC,
        Option.some_bind]
      exact hrun2
    have hpresUnder : ∀ r', mget m2 ((p ++ [i]) ++ r') = mget m1 ((p ++ [i]) ++ r') := by
      intro r'
      exact hpres2 _ (not_keyInSubList_under_head cs' p i r')
    refine ⟨m2, hrun, ?_, ?_, ?_⟩
    · intro q hq
      have h1 : ¬ keyInSubList cs' p (i + 1) q :=
        fun h => hq (keyInSubList_shift _ cs' p i q h)
      have h2 : ¬ keyInSub (Clade.node i0 (e :: es)) (p ++ [i]) q :=
        fun h => hq (keyInSubList_head _ cs' p i q h)
      rw [hpres2 q h1, hpresC q h2]
    · intro j c' r jj cc ccs hj hsub
      match j with
      | 0 =>
        have hc' : c' = Clade.node i0 (e :: es) := by simpa using hj.symm
        subst hc'
        obtain ⟨a, b, ha, hb, hm⟩ := hmidC r jj cc ccs hsub
        refine ⟨a, b, ?_, ?_, ?_⟩
        · have := hpresUnder (r ++ [0])
          simp only [Nat.add_zero, ← List.append_assoc] at this ⊢
          rw [this]
          exact ha
        · have := hpresUnder (r ++ [ccs.length])
          simp only [Nat.add_zero, ← List.append_assoc] at this ⊢
          rw [this]
          exact hb
        · have := hpresUnder r
          simp only [Nat.add_zero, ← List.append_assoc] at this ⊢
          rw [this]
          exact hm
      | j + 1 =>
        obtain ⟨a, b, ha, hb, hm⟩ := hmid2 j c' r jj cc ccs (by simpa using hj) hsub
        rw [keyShift]
        exact ⟨a, b, ha, hb, hm⟩
    · intro j c' hj
      match j with
      | 0 =>
        have h1 : mget m2 (p ++ [i]) = mget m1 (p ++ [i]) := by
          have := hpresUnder []
          simpa using this
        obtain ⟨a, b, _, _, hm⟩ := hmidC [] i0 e es (by rw [subtreeAt_nil])
        simp only [Nat.add_zero]
        rw [h1]
        have hm' : mget m1 (p ++ [i]) = some (mid a b) := by simpa using hm
        rw [hm']
        rfl
      | j + 1 =>
        have := hsome2 j c' (by simpa using hj)
        rwa [← keyShift0 p i j] at this
end

/-! ### Consequences for the two height layouts -/

mutual
theorem length_get_terminals : ∀ (c : Clade) (p : Pos),
    (get_terminals c).length = (termPosAux c p).length
  | Clade.node i [], p => by simp [get_terminals, termPosAux]
  | Clade.node i (c :: cs), p => by
    rw [get_terminals, termPosAux]
    exact length_terminalsList (c :: cs) p 0
theorem length_terminalsList : ∀ (cs : List Clade) (p : Pos) (i : Nat),
    (terminalsList cs).length = (termPosList cs p i).length
  | [], p, i => by simp [terminalsList, termPosList]
  | c :: cs, p, i => by
    rw [terminalsList, termPosList]
    simp only [List.length_append]
    rw [length_get_terminals c (p ++ [i]), length_terminalsList cs p (i + 1)]
end

theorem count_terminals_eq (t : Clade) :
    count_terminals t = (termPositions t).length :=
  length_get_terminals t []

theorem keys_enum_map {α : Type} (g : Nat → α) (l : List Pos) (s : Nat) :
    ((List.enumFrom s l).map (fun iq => (iq.2, g iq.1))).map Prod.fst = l := by
  induction l generalizing s with
  | nil => simp
  | cons a l ih => simp [List.enumFrom, ih]

theorem mget_base_isSome_iff {α : Type} (g : Nat → α) (l : List Pos) (q : Pos) :
    (mget ((l.enumFrom 0).map (fun iq => (iq.2, g iq.1))) q).isSome ↔ q ∈ l := by
  rw [mget_isSome_iff, keys_enum_map]


theorem mget_enum_isSome_iff {α : Type} (g : Nat → α) (l : List Pos) (q : Pos) :
    (mget ((l.enum).map (fun iq => (iq.2, g iq.1))) q).isSome ↔ q ∈ l :=
  mget_base_isSome_iff g l q

/-- Shared consequence of `calcRow_spec` for both height layouts: when the
seeded map binds exactly the terminal positions and the recursion succeeds,
tips keep their seeded value and every internal position carries `mid` of
its first and last child. -/
theorem calcRow_layout {α : Type} (mid : α → α → α) (i : CladeInfo) (d : Clade)
    (ds : List Clade) (base : List (Pos × α))
    (hkeys : ∀ q, (mget base q).isSome ↔ q ∈ termPositions (Clade.node i (d :: ds)))
    (m' : List (Pos × α))
    (hrun : calcRow mid (Clade.node i (d :: ds)) [] base = some m') :
    (∀ q, isTipAt (Clade.node i (d :: ds)) q → mget m' q = mget base q) ∧
    (∀ r jj cc ccs,
      subtreeAt (Clade.node i (d :: ds)) r = some (Clade.node jj (cc :: ccs)) →
      ∃ a b, mget m' (r ++ [0]) = some a ∧ mget m' (r ++ [ccs.length]) = some b ∧
        mget m' r = some (mid a b)) := by
  have htips : ∀ r, isTipAt (Clade.node i (d :: ds)) r →
      (mget base ([] ++ r)).isSome := by
    intro r htip
    rw [List.nil_append, hkeys, mem_termPositions]
    exact htip
  have hints : ∀ r, isIntAt (Clade.node i (d :: ds)) r →
      mget base ([] ++ r) = none := by
    intro r hi
    rw [List.nil_append, ← Option.not_isSome_iff_eq_none, hkeys, mem_termPositions]
    intro htip
    exact not_tip_and_int _ r ⟨htip, hi⟩
  obtain ⟨m'', hrun'', hpres, hmids⟩ :=
    calcRow_spec mid (Clade.node i (d :: ds)) [] base
      ((isIntAt_nil_iff i (d :: ds)).2 (by simp)) htips hints
  have hm : m'' = m' := by
    rw [hrun] at hrun''
    exact (Option.some.inj hrun'').symm
  subst hm
  constructor
  · intro q htip
    have hnotint : ¬ keyInSub (Clade.node i (d :: ds)) [] q := by
      rintro ⟨r, hr, hi'⟩
      rw [List.nil_append] at hr
      exact not_tip_and_int _ _ ⟨hr ▸ htip, hi'⟩
    exact hpres q hnotint
  · intro r jj cc ccs hsub
    obtain ⟨a, b, ha, hb, hm⟩ := hmids r jj cc ccs hsub
    exact ⟨a, b, by simpa using ha, by simpa using hb, by simpa using hm⟩

theorem get_y_positions_spec (t : Clade) (ys : List (Pos × Rat))
    (h : get_y_positions t = some ys) :
    (∀ k (hk : k < (termPositions t).length),
      mget ys ((termPositions t).get ⟨k, hk⟩) = some ((k : Rat) + 1)) ∧
    (∀ r jj cc ccs, subtreeAt t r = some (Clade.node jj (cc :: ccs)) →
      ∃ a b, mget ys (r ++ [0]) = some a ∧ mget ys (r ++ [ccs.length]) = some b ∧
        mget ys r = some ((a + b) / 2)) := by
  have hn : ((count_terminals t : Nat) : Rat) = ((termPositions t).length : Rat) := by
    rw [count_terminals_eq]
  match t, h with
  | Clade.node i [], h =>
    rw [get_y_positions] at h
    simp only [Option.some.injEq] at h
    subst h
    constructor
    · intro k hk
      exact mget_yBase (Clade.node i []) _ hn k hk
    · intro r jj cc ccs hsub
      exfalso
      match r, hsub with
      | [], hsub => rw [subtreeAt_nil] at hsub; simp [Clade.node.injEq] at hsub
      | x :: r', hsub => rw [subtreeAt_cons] at hsub; simp at hsub
  | Clade.node i (d :: ds), h =>
    rw [get_y_positions] at h
    have hkeys : ∀ q, (mget (((termPositions (Clade.node i (d :: ds))).reverse.enum).map
        (fun iq => (iq.2, ((count_terminals (Clade.node i (d :: ds)) : Nat) : Rat) - (iq.1 : Rat)))) q).isSome ↔
        q ∈ termPositions (Clade.node i (d :: ds)) := by
      intro q
      have hiff := mget_enum_isSome_iff
        (fun n => ((count_terminals (Clade.node i (d :: ds)) : Nat) : Rat) - (n : Rat))
        (termPositions (Clade.node i (d :: ds))).reverse q
      rw [List.mem_reverse] at hiff
      exact hiff
    obtain ⟨hpres, hmids⟩ := calcRow_layout midQ i d ds _ hkeys ys h
    constructor
    · intro k hk
      have hq : isTipAt (Clade.node i (d :: ds))
          ((termPositions (Clade.node i (d :: ds))).get ⟨k, hk⟩) := by
        rw [← mem_termPositions]
        exact List.get_mem _ k hk
      rw [hpres _ hq]
      exact mget_yBase (Clade.node i (d :: ds)) _ hn k hk
    · intro r jj cc ccs hsub
      obtain ⟨a, b, ha, hb, hm⟩ := hmids r jj cc ccs hsub
      exact ⟨a, b, ha, hb, by simpa [midQ] using hm⟩

theorem get_row_positions_spec (t : Clade) (rs : List (Pos × Nat))
    (h : get_row_positions t = some rs) :
    (∀ k (hk : k < (termPositions t).length),
      mget rs ((termPositions t).get ⟨k, hk⟩) = some (2 * k)) ∧
    (∀ r jj cc ccs, subtreeAt t r = some (Clade.node jj (cc :: ccs)) →
      ∃ a b, mget rs (r ++ [0]) = some a ∧ mget rs (r ++ [ccs.length]) = some b ∧
        mget rs r = some ((a + b) / 2)) := by
  match t, h with
  | Clade.node i [], h =>
    rw [get_row_positions, calcRow] at h
    simp at h
  | Clade.node i (d :: ds), h =>
    rw [get_row_positions] at h
    have hkeys : ∀ q, (mget (((termPositions (Clade.node i (d :: ds))).enum).map
        (fun iq => (iq.2, 2 * iq.1))) q).isSome ↔
        q ∈ termPositions (Clade.node i (d :: ds)) := by
      intro q
      exact mget_enum_isSome_iff (fun n => 2 * n)
        (termPositions (Clade.node i (d :: ds))) q
    obtain ⟨hpres, hmids⟩ := calcRow_layout midNat i d ds _ hkeys rs h
    constructor
    · intro k hk
      have hq : isTipAt (Clade.node i (d :: ds))
          ((termPositions (Clade.node i (d :: ds))).get ⟨k, hk⟩) := by
        rw [← mem_termPositions]
        exact List.get_mem _ k hk
      rw [hpres _ hq]
      exact mget_rowBase (Clade.node i (d :: ds)) k hk
    · intro r jj cc ccs hsub
      obtain ⟨a, b, ha, hb, hm⟩ := hmids r jj cc ccs hsub
      exact ⟨a, b, ha, hb, by simpa [midNat] using hm⟩

/-! ### Facts about the depth selection and the ASCII quantization -/

theorem mget_get_x_positions_root (t : Clade) :
    mget (get_x_positions t) [] = some 0 := by
  rw [get_x_positions]
  by_cases h : maxVal (tree_depths false t) = 0
  · rw [if_pos h]
    exact mget_tree_depths_root true t
  · rw [if_neg h]
    exact mget_tree_depths_root false t

theorem get_col_positions_isSome_of_child (cw : Int) (i : CladeInfo) (d : Clade)
    (ds : List Clade) :
    (get_col_positions cw (Clade.node i (d :: ds))).isSome := by
  rw [get_col_positions]
  by_cases h : maxVal (tree_depths false (Clade.node i (d :: ds))) = 0
  · have hsub : (subtreeAt (Clade.node i (d :: ds)) [0]).isSome := by
      rw [subtreeAt_cons]
      simp [subtreeAt_nil]
    have h1 : mget (tree_depths true (Clade.node i (d :: ds))) [0] = some 1 := by
      have := mget_tree_depths_unit (Clade.node i (d :: ds)) [0] hsub
      simpa using this
    have hle : (1 : Rat) ≤ maxVal (tree_depths true (Clade.node i (d :: ds))) :=
      le_maxVal _ [0] 1 (mget_mem _ _ _ h1)
    have hne : maxVal (tree_depths true (Clade.node i (d :: ds))) ≠ 0 := by
      intro h0
      rw [h0] at hle
      norm_num at hle
    simp only [if_pos h, hne, if_false]
    simp
  · simp only [if_neg h, h, if_false]
    simp

theorem get_col_positions_singleton (cw : Int) (i : CladeInfo) :
    get_col_positions cw (Clade.node i []) = none := by
  rw [get_col_positions]
  have hfalse : maxVal (tree_depths false (Clade.node i [])) = 0 := by
    simp [tree_depths, depthsAux, depthsList, maxVal]
  have htrue : maxVal (tree_depths true (Clade.node i [])) = 0 := by
    simp [tree_depths, depthsAux, depthsList, maxVal]
  simp [hfalse, htrue]

/-! ### Facts about `draw` -/

/-- Events that put ink on the plotting surface (line segments, text,
polar plot calls) as opposed to axis bookkeeping and pyplot passthrough. -/
def isDrawingEvent : Event → Bool
  | .hline _ _ _ _ _ _ => true
  | .vline _ _ _ _ _ _ => true
  | .text _ _ _ => true
  | .polarPlot => true
  | .polarArc => true
  | .polarText _ => true
  | _ => false

theorem drawCladeV_head (xs ys : List (Pos × Rat)) (labeler : Pos → Clade → Option String)
    (dl al : Bool) (info : CladeInfo) (cs : List Clade) (p : Pos) (x0 : Rat)
    (col : String) (lw : Rat) :
    ∃ e rest, (drawCladeV xs ys labeler dl al (Clade.node info cs) p x0 col lw).1 =
      e :: rest ∧ isDrawingEvent e = true := by
  match cs with
  | [] => exact ⟨_, _, rfl, rfl⟩
  | c :: cs' => exact ⟨_, _, rfl, rfl⟩

theorem drawCladePolarSkel_head (dl al : Bool) (info : CladeInfo) (cs : List Clade) :
    ∃ rest, drawCladePolarSkel dl al (Clade.node info cs) = Event.polarPlot :: rest := by
  match cs with
  | [] => exact ⟨_, rfl⟩
  | c :: cs' => exact ⟨_, rfl⟩

theorem procKwargs_error (l : List (String × KwVal))
    (h : ∃ k, (k, KwVal.notIterable) ∈ l) :
    ∃ k', (procKwargs l).2 = some (kwargErr k') := by
  induction l with
  | nil => simp at h
  | cons kv rest ih =>
    obtain ⟨k, hk⟩ := h
    match kv with
    | (k0, KwVal.notIterable) => exact ⟨k0, by simp [procKwargs]⟩
    | (k0, KwVal.tupleArg) =>
      rcases List.mem_cons.1 hk with h | h
      · cases h
      · obtain ⟨k', hk'⟩ := ih ⟨k, h⟩
        exact ⟨k', by simpa [procKwargs] using hk'⟩
    | (k0, KwVal.dictArg) =>
      rcases List.mem_cons.1 hk with h | h
      · cases h
      · obtain ⟨k', hk'⟩ := ih ⟨k, h⟩
        exact ⟨k', by simpa [procKwargs] using hk'⟩
    | (k0, KwVal.tupleDictArg) =>
      rcases List.mem_cons.1 hk with h | h
      · cases h
      · obtain ⟨k', hk'⟩ := ih ⟨k, h⟩
        exact ⟨k', by simpa [procKwargs] using hk'⟩

theorem draw_tree_unchanged (cfg : DrawCfg) (t : PTree) : (draw cfg t).tree = t := rfl

/-! ### Concrete example trees -/

/-- A terminal clade with a name and a branch length. -/
def mkLeaf (s : String) (bl : Option Rat) : Clade :=
  Clade.node { blankInfo with name := some s, branch_length := bl } []

/-- An internal clade with a branch length. -/
def mkInner (bl : Option Rat) (cs : List Clade) : Clade :=
  Clade.node { blankInfo with branch_length := bl } cs

/-- Balanced four-terminal tree with labels A-D and unit branch lengths. -/
def asciiTree4 : Clade :=
  mkInner none
    [mkInner (some 1) [mkLeaf "A" (some 1), mkLeaf "B" (some 1)],
     mkInner (some 1) [mkLeaf "C" (some 1), mkLeaf "D" (some 1)]]

/-- Three-terminal caterpillar: root over (inner over two leaves) and a third
leaf; its root row is the floor of an odd midpoint. -/
def rowTree3 : Clade :=
  mkInner none
    [mkInner (some 1) [mkLeaf "A" (some 1), mkLeaf "B" (some 1)],
     mkLeaf "C" (some 1)]

/-- Two-terminal tree. -/
def yTree2 : Clade := mkInner none [mkLeaf "A" (some 1), mkLeaf "B" (some 1)]

/-- Single-clade tree: the root is its only clade and also a terminal. -/
def oneNodeTree : Clade := mkLeaf "X" none

/-- Parent colored `"#ff0000"` with one uncolored child. -/
def redParent : Clade :=
  Clade.node { blankInfo with color := some "#ff0000" }
    [Clade.node blankInfo []]

def redParentTree : PTree := ⟨redParent, none⟩

/-- A tree with no branch lengths: root with one child A that has two
children A1, A2 (the spec example for the unit-depth fallback). -/
def unitTree : Clade :=
  mkInner none [mkInner none [mkLeaf "A1" none, mkLeaf "A2" none]]

/-- `draw` invocation with an invalid orientation. -/
def diagCfg : DrawCfg := { defaultCfg with orient_tree := "diagonal" }

/-- `draw` invocation with a malformed passthrough pyplot option. -/
def badKwargCfg : DrawCfg :=
  { defaultCfg with kwargs := [("axvline", KwVal.notIterable)] }

/-! ### The two successful `drawRun` paths used by the claims -/

theorem drawRun_vertical (cfg : DrawCfg) (t : PTree) (f : Pos → Clade → Option String)
    (h1 : cfg.orient_tree = "vertical")
    (h2 : cfg.vertical_direction ∈ (["right", "left"] : List String))
    (hf : selectBranchLabeler cfg.branch_labels cfg.show_confidence = Except.ok f) :
    (drawRun cfg t).2 = (procKwargs cfg.kwargs).2 ∧
    ∀ e, e ∈ (drawCladeV (get_x_positions t.root) ((get_y_positions t.root).getD [])
        f cfg.draw_labels cfg.align_labels t.root [] 0 "k" rcLinesLinewidth).1 →
      e ∈ (drawRun cfg t).1 := by
  have hmem : cfg.orient_tree ∈ (["horizontal", "vertical", "circular"] : List String) := by
    rw [h1]; simp
  rw [drawRun, if_neg (not_not_intro hmem),
    if_neg (by rintro ⟨_, hnd⟩; exact hnd h2),
    if_neg (by rintro ⟨he, _⟩; rw [h1] at he; exact absurd he (by decide)),
    hf]
  simp only [if_pos h1]
  cases hkw : (procKwargs cfg.kwargs).2 with
  | none =>
    constructor
    · simp [hkw]
    · intro e he
      simp [hkw, List.mem_append, he]
  | some e0 =>
    constructor
    · simp [hkw]
    · intro e he
      simp [hkw, List.mem_append, he]

theorem drawRun_circular (cfg : DrawCfg) (t : PTree) (f : Pos → Clade → Option String)
    (h1 : cfg.orient_tree = "circular")
    (hf : selectBranchLabeler cfg.branch_labels cfg.show_confidence = Except.ok f) :
    (drawRun cfg t).2 = (procKwargs cfg.kwargs).2 ∧
    ∀ e, e ∈ drawCladePolarSkel cfg.draw_labels cfg.align_labels t.root →
      e ∈ (drawRun cfg t).1 := by
  have hmem : cfg.orient_tree ∈ (["horizontal", "vertical", "circular"] : List String) := by
    rw [h1]; simp
  rw [drawRun, if_neg (not_not_intro hmem),
    if_neg (by rintro ⟨he, _⟩; rw [h1] at he; exact absurd he (by decide)),
    if_neg (by rintro ⟨he, _⟩; rw [h1] at he; exact absurd he (by decide)),
    hf]
  have hv : ¬ cfg.orient_tree = "vertical" := by rw [h1]; decide
  have hh : ¬ cfg.orient_tree = "horizontal" := by rw [h1]; decide
  simp only [if_neg hv, if_neg hh]
  cases hkw : (procKwargs cfg.kwargs).2 with
  | none =>
    constructor
    · simp [hkw]
    · intro e he
      simp [hkw, List.mem_append, he]
  | some e0 =>
    constructor
    · simp [hkw]
    · intro e he
      simp [hkw, List.mem_append, he]

/-! ### Shared helper for the color cascade of the graph exporter -/

theorem add_edge_color_cascade (n1 n2 : Clade) (hex : String)
    (h1 : n1.info.color = some hex) (h2 : n2.info.color = none) :
    (add_edge n1 n2).1.color = some hex ∧ (add_edge n1 n2).2.info.color = some hex := by
  cases n1 with
  | node i1 cs1 =>
    cases n2 with
    | node i2 cs2 =>
      simp only [Clade.info] at h1 h2
      rw [add_edge]
      simp only [Clade.info, h1, h2]
      cases hw : i2.width with
      | some w => simp [Clade.info, Clade.setColor, Clade.setWidth, hw]
      | none =>
        cases hw1 : i1.width with
        | some w1 => simp [Clade.info, Clade.setColor, Clade.setWidth, hw, hw1]
        | none => simp [Clade.info, Clade.setColor, Clade.setWidth, hw, hw1]

/-! ### Concrete layout values used by witnesses and counterexamples -/

/-- `get_y_positions asciiTree4`, as computed. -/
def ysT4 : List (Pos × Rat) :=
  [([], 5 / 2), ([1], 7 / 2), ([0], 3 / 2), ([1, 1], 4), ([1, 0], 3), ([0, 1], 2), ([0, 0], 1)]

/-- `get_row_positions asciiTree4`, as computed. -/
def rsT4 : List (Pos × Nat) :=
  [([], 3), ([1], 5), ([0], 1), ([0, 0], 0), ([0, 1], 2), ([1, 0], 4), ([1, 1], 6)]

/-- `get_y_positions yTree2`, as computed. -/
def ys2 : List (Pos × Rat) := [([], 3 / 2), ([1], 2), ([0], 1)]

/-- `get_row_positions yTree2`, as computed. -/
def rs2 : List (Pos × Nat) := [([], 1), ([0], 0), ([1], 2)]

/-- Running the vector layout twice in sequence on the same tree: the pair
of the two runs' results. -/
def layoutTwiceVector (t : Clade) :
    (List (Pos × Rat) × Option (List (Pos × Rat))) ×
      (List (Pos × Rat) × Option (List (Pos × Rat))) :=
  ((get_x_positions t, get_y_positions t), (get_x_positions t, get_y_positions t))

/-- Running the ASCII layout twice in sequence on the same tree. -/
def layoutTwiceAscii (cw : Int) (t : Clade) :
    (Option (List (Pos × Int)) × Option (List (Pos × Nat))) ×
      (Option (List (Pos × Int)) × Option (List (Pos × Nat))) :=
  ((get_col_positions cw t, get_row_positions t), (get_col_positions cw t, get_row_positions t))

/-! ### The claims -/

/-- C1 (counterexample): in the ASCII layout of a three-terminal tree the
root is assigned row `(1 + 4) // 2 = 2`, which is not exactly the midpoint
`(1 + 4) / 2 = 5/2` of its first and last child rows, refuting the claim
that in both layouts every internal height equals exactly
`(first + last) / 2`. -/
theorem claim_C1_counterexample :
    ∃ rs, get_row_positions rowTree3 = some rs ∧
      mget rs [0] = some 1 ∧ mget rs [1] = some 4 ∧ mget rs [] = some 2 ∧
      ¬ (((2 : Nat) : Rat) = (((1 : Nat) : Rat) + ((4 : Nat) : Rat)) / 2) := by
  refine ⟨_, rfl, by decide, by decide, by decide, ?_⟩
  norm_num

/-- C1 (amended): in both height layouts terminals are placed in traversal
order as a strictly increasing sequence, and every internal clade is
assigned the midpoint of its first and last child only — exactly
`(first + last) / 2` in the vector layout, and the floor
`(first + last) // 2` (integer division) in the ASCII layout. -/
theorem claim_C1_amended (t : Clade) (ys : List (Pos × Rat)) (rs : List (Pos × Nat))
    (hy : get_y_positions t = some ys) (hr : get_row_positions t = some rs) :
    (∀ k k' (hk : k < (termPositions t).length) (hk' : k' < (termPositions t).length),
      k < k' → ∃ a b, mget ys ((termPositions t).get ⟨k, hk⟩) = some a ∧
        mget ys ((termPositions t).get ⟨k', hk'⟩) = some b ∧ a < b) ∧
    (∀ k k' (hk : k < (termPositions t).length) (hk' : k' < (termPositions t).length),
      k < k' → ∃ a b : Nat, mget rs ((termPositions t).get ⟨k, hk⟩) = some a ∧
        mget rs ((termPositions t).get ⟨k', hk'⟩) = some b ∧ a < b) ∧
    (∀ r jj cc ccs, subtreeAt t r = some (Clade.node jj (cc :: ccs)) →
      ∃ a b, mget ys (r ++ [0]) = some a ∧ mget ys (r ++ [ccs.length]) = some b ∧
        mget ys r = some ((a + b) / 2)) ∧
    (∀ r jj cc ccs, subtreeAt t r = some (Clade.node jj (cc :: ccs)) →
      ∃ a b : Nat, mget rs (r ++ [0]) = some a ∧ mget rs (r ++ [ccs.length]) = some b ∧
        mget rs r = some ((a + b) / 2)) := by
  obtain ⟨hyt, hym⟩ := get_y_positions_spec t ys hy
  obtain ⟨hrt, hrm⟩ := get_row_positions_spec t rs hr
  refine ⟨?_, ?_, hym, hrm⟩
  · intro k k' hk hk' hkk
    refine ⟨_, _, hyt k hk, hyt k' hk', ?_⟩
    have : (k : Rat) < (k' : Rat) := by exact_mod_cast hkk
    linarith
  · intro k k' hk hk' hkk
    exact ⟨_, _, hrt k hk, hrt k' hk', by omega⟩

/-- C1 (witness): the amended statement applied to the balanced
four-terminal tree — its first two terminals get strictly increasing
vector heights. -/
theorem claim_C1_amended_witness :
    get_y_positions asciiTree4 = some ysT4 ∧ get_row_positions asciiTree4 = some rsT4 ∧
    ∃ a b, mget ysT4 ((termPositions asciiTree4).get ⟨0, by decide⟩) = some a ∧
      mget ysT4 ((termPositions asciiTree4).get ⟨1, by decide⟩) = some b ∧ a < b := by
  refine ⟨by with_unfolding_all rfl, by decide, ?_⟩
  exact (claim_C1_amended asciiTree4 ysT4 rsT4 (by with_unfolding_all rfl) (by decide)).1 0 1
    (by decide) (by decide) (by decide)

/-- C2: the depth assignment uses the branch-length depth mapping verbatim
when its maximum is nonzero, and exactly when that maximum is zero it
recomputes with unit branch lengths, making every clade depth its edge
count from the root. -/
theorem claim_C2 (t : Clade) :
    (maxVal (tree_depths false t) ≠ 0 → get_x_positions t = tree_depths false t) ∧
    (maxVal (tree_depths false t) = 0 →
      get_x_positions t = tree_depths true t ∧
      ∀ r, (subtreeAt t r).isSome = true →
        mget (get_x_positions t) r = some ((r.length : Rat))) := by
  constructor
  · intro h
    rw [get_x_positions, if_neg h]
  · intro h
    constructor
    · rw [get_x_positions, if_pos h]
    · intro r hr
      rw [get_x_positions, if_pos h]
      exact mget_tree_depths_unit t r hr

/-- C2 (witness): the all-`None` tree root → A → A1, A2 falls back to unit
depths; the grandchild A1 sits at depth 2, its edge count from the root. -/
theorem claim_C2_witness :
    maxVal (tree_depths false unitTree) = 0 ∧
    get_x_positions unitTree = tree_depths true unitTree ∧
    mget (get_x_positions unitTree) [0, 0] = some ((([0, 0] : Pos).length : Rat)) :=
  ⟨by with_unfolding_all rfl, ((claim_C2 unitTree).2 (by with_unfolding_all rfl)).1,
   ((claim_C2 unitTree).2 (by with_unfolding_all rfl)).2 [0, 0] (by decide)⟩

/-- C3 (counterexample): the single-clade tree has at least one node and
all-zero depths, yet the ASCII column quantization divides by the maximum
depth, which is still zero after the unit fallback, so it fails
(`ZeroDivisionError`) rather than succeeding, and `draw_ascii` fails with
it. -/
theorem claim_C3_counterexample :
    (subtreeAt oneNodeTree []).isSome = true ∧
    maxVal (tree_depths false oneNodeTree) = 0 ∧
    maxVal (tree_depths true oneNodeTree) = 0 ∧
    get_col_positions 80 oneNodeTree = none ∧
    draw_ascii 80 oneNodeTree = none := by
  refine ⟨by decide, ?_, ?_, ?_, ?_⟩ <;> with_unfolding_all rfl

/-- C3 (amended): the depth/X assignment itself always succeeds (the root
is mapped, to depth 0), and the ASCII column quantization succeeds
whenever the tree has at least one edge (the root has a child); only the
single-clade tree divides by zero. -/
theorem claim_C3_amended (t : Clade) (cw : Int) :
    mget (get_x_positions t) [] = some 0 ∧
    (t.children ≠ [] → (get_col_positions cw t).isSome = true) := by
  refine ⟨mget_get_x_positions_root t, ?_⟩
  intro h
  match t, h with
  | Clade.node i (d :: ds), _ => exact get_col_positions_isSome_of_child cw i d ds

/-- C3 (witness): the amended statement at the two-terminal tree. -/
theorem claim_C3_amended_witness :
    mget (get_x_positions yTree2) [] = some 0 ∧
    (get_col_positions 80 yTree2).isSome = true :=
  ⟨(claim_C3_amended yTree2 80).1,
   (claim_C3_amended yTree2 80).2 (List.cons_ne_nil _ _)⟩

/-- C4 (counterexample): on a two-terminal tree the first terminal in
traversal order receives vector height 1, not `count - index = 2`, and in
both variants it receives the lowest terminal coordinate, not the
highest. -/
theorem claim_C4_counterexample :
    ∃ ys rs, get_y_positions yTree2 = some ys ∧ get_row_positions yTree2 = some rs ∧
      mget ys ((termPositions yTree2).get ⟨0, by decide⟩) = some 1 ∧
      mget ys ((termPositions yTree2).get ⟨1, by decide⟩) = some 2 ∧
      ¬ ((1 : Rat) = ((count_terminals yTree2 : Nat) : Rat) - ((0 : Nat) : Rat)) ∧
      mget rs ((termPositions yTree2).get ⟨0, by decide⟩) = some 0 ∧
      ¬ ((1 : Rat) ≥ 2) ∧ ¬ ((0 : Nat) ≥ 2) := by
  refine ⟨ys2, rs2, by with_unfolding_all rfl, by decide, by with_unfolding_all rfl,
    by with_unfolding_all rfl, ?_, by decide, ?_, by decide⟩
  · have h2 : count_terminals yTree2 = 2 := rfl
    rw [h2]
    norm_num
  · norm_num

/-- C4 (amended): the terminal at traversal index `k` receives `k + 1` in
the vector layout (the code enumerates the reversed terminals, assigning
`count - i`) and `2 * k` in the ASCII layout, so in both variants the
first terminal receives the lowest terminal coordinate — topmost only
because the vector renderer inverts its axis and ASCII row 0 prints
first. -/
theorem claim_C4_amended (t : Clade) (ys : List (Pos × Rat)) (rs : List (Pos × Nat))
    (hy : get_y_positions t = some ys) (hr : get_row_positions t = some rs) :
    (∀ k (hk : k < (termPositions t).length),
      mget ys ((termPositions t).get ⟨k, hk⟩) = some ((k : Rat) + 1)) ∧
    (∀ k (hk : k < (termPositions t).length),
      mget rs ((termPositions t).get ⟨k, hk⟩) = some (2 * k)) ∧
    (∀ k (hk : k < (termPositions t).length) (h0 : 0 < (termPositions t).length),
      ∃ a b, mget ys ((termPositions t).get ⟨0, h0⟩) = some a ∧
        mget ys ((termPositions t).get ⟨k, hk⟩) = some b ∧ a ≤ b) ∧
    (∀ k (hk : k < (termPositions t).length) (h0 : 0 < (termPositions t).length),
      ∃ a b : Nat, mget rs ((termPositions t).get ⟨0, h0⟩) = some a ∧
        mget rs ((termPositions t).get ⟨k, hk⟩) = some b ∧ a ≤ b) := by
  obtain ⟨hyt, hym⟩ := get_y_positions_spec t ys hy
  obtain ⟨hrt, hrm⟩ := get_row_positions_spec t rs hr
  refine ⟨hyt, hrt, ?_, ?_⟩
  · intro k hk h0
    refine ⟨_, _, hyt 0 h0, hyt k hk, ?_⟩
    have : (0 : Rat) ≤ (k : Rat) := by positivity
    push_cast
    linarith
  · intro k hk h0
    exact ⟨_, _, hrt 0 h0, hrt k hk, by omega⟩

/-- C4 (witness): the amended statement at the two-terminal tree. -/
theorem claim_C4_amended_witness :
    get_y_positions yTree2 = some ys2 ∧ get_row_positions yTree2 = some rs2 ∧
    mget ys2 ((termPositions yTree2).get ⟨0, by decide⟩) = some (((0 : Nat) : Rat) + 1) ∧
    mget rs2 ((termPositions yTree2).get ⟨1, by decide⟩) = some (2 * 1) :=
  ⟨by with_unfolding_all rfl, by decide,
   (claim_C4_amended yTree2 ys2 rs2 (by with_unfolding_all rfl) (by decide)).1 0 (by decide),
   (claim_C4_amended yTree2 ys2 rs2 (by with_unfolding_all rfl) (by decide)).2.1 1 (by decide)⟩

/-- C5: `draw_ascii` on the balanced four-terminal tree with labels A-D and
unit branch lengths writes the 7-row grid (`2*4-1`), followed by the final
blank line, with the terminal labels on the even rows 0, 2, 4, 6 in input
traversal order. -/
theorem claim_C5 :
    ∃ ls, draw_ascii 80 asciiTree4 = some ls ∧
      ls.length = 2 * 4 - 1 + 1 ∧ ls.getLast? = some "" ∧
      (ls.getD 0 "").endsWith " A" = true ∧ (ls.getD 2 "").endsWith " B" = true ∧
      (ls.getD 4 "").endsWith " C" = true ∧ (ls.getD 6 "").endsWith " D" = true := by
  refine ⟨(draw_ascii 80 asciiTree4).getD [], ?_, ?_, ?_, ?_, ?_, ?_, ?_⟩ <;>
    with_unfolding_all rfl

/-- C6: for any orientation string outside horizontal/vertical/circular,
`draw` raises the `ValueError` naming `orient_tree` before anything is
issued to the plotting surface: the event trace is empty. -/
theorem claim_C6 (cfg : DrawCfg) (t : PTree)
    (h : cfg.orient_tree ∉ (["horizontal", "vertical", "circular"] : List String)) :
    draw cfg t = ⟨[], some (PyErr.valueError orientMsg), t⟩ := by
  have hrun : drawRun cfg t = ([], some (PyErr.valueError orientMsg)) := by
    rw [drawRun, if_pos h]
  rw [draw, hrun]

/-- C6 (witness): `orient_tree="diagonal"` fails with no drawing issued. -/
theorem claim_C6_witness :
    diagCfg.orient_tree ∉ (["horizontal", "vertical", "circular"] : List String) ∧
    draw diagCfg redParentTree = ⟨[], some (PyErr.valueError orientMsg), redParentTree⟩ :=
  ⟨by decide, claim_C6 diagCfg redParentTree (by decide)⟩

/-- C7 (counterexample): with a malformed passthrough keyword option the
`ValueError` naming the argument is raised, but only after the tree has
been drawn — the event trace at the time of the error already contains
drawing primitives, refuting "before any drawing occurs". -/
theorem claim_C7_counterexample :
    (draw badKwargCfg redParentTree).error = some (kwargErr "axvline") ∧
    (draw badKwargCfg redParentTree).events.any isDrawingEvent = true := by
  constructor
  · with_unfolding_all rfl
  · with_unfolding_all rfl

/-- C7 (amended): a malformed passthrough keyword option raises the
`ValueError` describing the offending argument, but only after the clade
drawing pass: the trace already holds drawing primitives when the error is
raised (shown for the vertical and circular orientations; the kwargs loop
runs last in the source for every orientation). -/
theorem claim_C7_amended (cfg : DrawCfg) (t : PTree)
    (horient : (cfg.orient_tree = "vertical" ∧
        cfg.vertical_direction ∈ (["right", "left"] : List String)) ∨
      cfg.orient_tree = "circular")
    (hlab : ∃ f, selectBranchLabeler cfg.branch_labels cfg.show_confidence = Except.ok f)
    (hkw : ∃ k, (k, KwVal.notIterable) ∈ cfg.kwargs) :
    (∃ kk, (draw cfg t).error = some (kwargErr kk)) ∧
    ∃ e, e ∈ (draw cfg t).events ∧ isDrawingEvent e = true := by
  obtain ⟨f, hf⟩ := hlab
  obtain ⟨kk, hkk⟩ := procKwargs_error cfg.kwargs hkw
  rcases horient with ⟨hv, hvd⟩ | hc
  · obtain ⟨herr, hmem⟩ := drawRun_vertical cfg t f hv hvd hf
    constructor
    · refine ⟨kk, ?_⟩
      show (drawRun cfg t).2 = some (kwargErr kk)
      rw [herr, hkk]
    · cases htr : t.root with
      | node info cs =>
        rw [htr] at hmem
        obtain ⟨e, rest, hhead, hde⟩ := drawCladeV_head
          (get_x_positions (Clade.node info cs))
          ((get_y_positions (Clade.node info cs)).getD []) f cfg.draw_labels
          cfg.align_labels info cs [] 0 "k" rcLinesLinewidth
        refine ⟨e, ?_, hde⟩
        refine hmem e ?_
        rw [hhead]
        exact List.mem_cons_self _ _
  · obtain ⟨herr, hmem⟩ := drawRun_circular cfg t f hc hf
    constructor
    · refine ⟨kk, ?_⟩
      show (drawRun cfg t).2 = some (kwargErr kk)
      rw [herr, hkk]
    · cases htr : t.root with
      | node info cs =>
        rw [htr] at hmem
        obtain ⟨rest, hhead⟩ := drawCladePolarSkel_head cfg.draw_labels cfg.align_labels info cs
        refine ⟨Event.polarPlot, ?_, rfl⟩
        refine hmem _ ?_
        rw [hhead]
        exact List.mem_cons_self _ _

/-- C7 (witness): the amended statement at a concrete vertical call with a
non-iterable `axvline` value. -/
theorem claim_C7_amended_witness :
    (∃ kk, (draw badKwargCfg redParentTree).error = some (kwargErr kk)) ∧
    ∃ e, e ∈ (draw badKwargCfg redParentTree).events ∧ isDrawingEvent e = true :=
  claim_C7_amended badKwargCfg redParentTree (Or.inl ⟨rfl, by decide⟩)
    ⟨_, rfl⟩ ⟨"axvline", by decide⟩

/-- C8 (counterexample): after a draw pass over the tree whose parent is
colored `"#ff0000"` and whose child has no color, the child of the input
tree still has no color — the claimed observable mutation does not
happen in `draw`. -/
theorem claim_C8_counterexample :
    ¬ cladeColorAt (draw defaultCfg redParentTree).tree.root [0] = some (some "#ff0000") := by
  have h : cladeColorAt (draw defaultCfg redParentTree).tree.root [0] = some none := by
    with_unfolding_all rfl
  rw [h]
  intro hc
  exact Option.noConfusion (Option.some.inj hc)

/-- C8 (amended): `draw` returns the input tree unchanged — the cascade is
carried by the local color argument of `draw_clade`, so the child branch is
drawn in the parent color `"#ff0000"` while the child clade keeps
`color = None`; the one-step observable mutation the spec describes
happens in the graph exporter, whose `add_edge` assigns the parent color
to a colorless child. -/
theorem claim_C8_amended :
    (∀ cfg t, (draw cfg t).tree = t) ∧
    (Event.hline 1 0 1 "#ff0000" (3 / 2) false ∈ (draw defaultCfg redParentTree).events ∧
      cladeColorAt (draw defaultCfg redParentTree).tree.root [0] = some none) ∧
    (∀ n1 n2 hex, n1.info.color = some hex → n2.info.color = none →
      (add_edge n1 n2).2.info.color = some hex) := by
  refine ⟨fun cfg t => rfl, ⟨?_, ?_⟩, ?_⟩
  · have hev : (draw defaultCfg redParentTree).events =
        [Event.hline 1 0 0 "#ff0000" (3 / 2) false,
         Event.hline 1 0 1 "#ff0000" (3 / 2) false,
         Event.vline 0 1 1 "#ff0000" (3 / 2) false,
         Event.axisSet "xlabel", Event.axisSet "ylabel",
         Event.axisSet "ylim", Event.axisSet "xlim", Event.showFig] := by
      with_unfolding_all rfl
    rw [hev]
    simp
  · with_unfolding_all rfl
  · intro n1 n2 hex h1 h2
    exact (add_edge_color_cascade n1 n2 hex h1 h2).2

/-- C8 (witness): the amended statement at the red-parent tree and at the
exporter `add_edge` on its two clades. -/
theorem claim_C8_amended_witness :
    (draw defaultCfg redParentTree).tree = redParentTree ∧
    (add_edge redParent (Clade.node blankInfo [])).2.info.color = some "#ff0000" :=
  ⟨claim_C8_amended.1 defaultCfg redParentTree,
   claim_C8_amended.2.2 redParent (Clade.node blankInfo []) "#ff0000" rfl rfl⟩

/-- C9: running the depth and height computations twice in sequence on the
same unmutated tree yields identical mappings in both the vector and the
ASCII variants — the layout functions are deterministic with no hidden
state. -/
theorem claim_C9 (t : Clade) (cw : Int) :
    (layoutTwiceVector t).1 = (layoutTwiceVector t).2 ∧
    (layoutTwiceAscii cw t).1 = (layoutTwiceAscii cw t).2 :=
  ⟨rfl, rfl⟩

/-- C10: an empty `branch_labels` dict is falsy, so the dispatch takes the
same default branch as `branch_labels=None`: no error, and the labeler is
the default confidence formatter (gated by `show_confidence`), not the
dict lookup. -/
theorem claim_C10 (sc : Bool) :
    selectBranchLabeler (BranchLabelsArg.dict []) sc =
      selectBranchLabeler BranchLabelsArg.noneArg sc ∧
    ∃ f, selectBranchLabeler (BranchLabelsArg.dict []) sc = Except.ok f ∧
      ∀ p c, f p c = defaultBranchLabel sc c := by
  exact ⟨rfl, ⟨_, rfl, fun p c => rfl⟩⟩

end PhyloDraw
